import Mathlib

/-!
Shallow embedding of the mpbuild build orchestrator (Go) and proofs about it.

The embedding follows the newest revision of `mpbuild.go` together with
`prefs.go`: the task/job data model, the admission-and-drain scheduler loop
in `run`, the pre-run skip marking driven by `--start`, `--only`, `--not`,
`--deps` and the ignore preference, the `--deps` transitive-closure
expansion in `main`, and the Windows toolchain probing in
`checkWinCompiler`.  Effectful parts (file existence, spawned build
commands, the per-task build outcome) are parameters of the model.
-/

namespace Mpbuild

/-- Go `strings.Contains s sub`: `sub` occurs as a contiguous substring. -/
def strContains (s sub : String) : Bool :=
  decide (List.IsInfix sub.data s.data)

/-- `Task` of mpbuild.go: the immutable data carried by a task record.
The mutable run state (`Complete`, `Running`, `Err`, `Output`) lives in
`SchedState` below, keyed by the task's position in `Job.Tasks`. -/
structure Task where
  Inputs : List Nat
  Cost : Int
  Messages : String
  MadeProj : String
  ID : Nat
deriving DecidableEq, Repr, Inhabited

/-- `Job` of mpbuild.go. -/
structure Job where
  Tasks : List Task
  Platform : String
deriving DecidableEq, Repr

/-- `Project` of prefs.go (the newest mpbuild.go also reads `p.Ignore`). -/
structure Project where
  Name : String
  Alone : Bool
  Ignore : Bool
deriving DecidableEq, Repr

/-- `Prefs` of prefs.go. -/
structure Prefs where
  Workers : Nat
  Threads : Nat
  Projects : List Project
deriving DecidableEq, Repr

/-- `Job.Search`: index of the first task whose label contains `project`,
`-1` (here `none`) when there is none. -/
def Job.Search (j : Job) (project : String) : Option Nat :=
  j.Tasks.findIdx? (fun t => strContains t.Messages project)

/-- `Task.DependsOn`: does `t` list `id` among its direct inputs? -/
def Task.DependsOn (t : Task) (id : Nat) : Bool :=
  t.Inputs.contains id

/-- `Task.HasPendingDeps` over a completion map: walks `t.Inputs`, indexing
`job.Tasks[input]`; an index out of bounds is a Go runtime panic, rendered
here as `none`.  `some true` = some dependency is not completed yet. -/
def pendingDepsAux (n : Nat) (complete : Nat → Bool) : List Nat → Option Bool
  | [] => some false
  | d :: ds =>
    if d < n then
      if complete d then pendingDepsAux n complete ds else some true
    else none

/-- `isAloneProject`: false off Windows, else true when some preference
project with `Alone` set has its name inside the task's label. -/
def isAloneProject (goos : String) (prefs : Prefs) (t : Task) : Bool :=
  if goos != "windows" then false
  else prefs.Projects.any (fun p => p.Alone && strContains t.Messages p.Name)

/-- `isIgnoreProject` of mpbuild.go. -/
def isIgnoreProject (prefs : Prefs) (t : Task) : Bool :=
  prefs.Projects.any (fun p => p.Ignore && strContains t.Messages p.Name)

/-! ### Toolchain resolution (`checkWinCompiler`) and build command (`build`) -/

def gVS2017 : String := "C:\\Program Files (x86)\\Microsoft Visual Studio\\2017\\Common7\\IDE"

def gVS2017Ent : String := "C:\\Program Files (x86)\\Microsoft Visual Studio\\2017\\Enterprise\\Common7\\IDE"

def gVS2017Ult : String := "C:\\Program Files (x86)\\Microsoft Visual Studio\\2017\\Ultimate\\Common7\\IDE"

def gVS2015 : String := "C:\\Program Files (x86)\\Microsoft Visual Studio 14.0\\Common7\\IDE"

/-- The candidate installation directories in the order the nested
`os.Stat` conditions of `checkWinCompiler` probe them. -/
def vsCandidates : List String := [gVS2017, gVS2017Ent, gVS2017Ult, gVS2015]

/-- `checkWinCompiler`, with file existence abstracted as the predicate
`ex` (`ex p = true` iff `os.Stat p` does not report not-exist).  `none`
renders the `log.Panic "Could not find VisualStudio!"` abort. -/
def checkWinCompiler (ex : String → Bool) : Option String :=
  if ex gVS2017 then some gVS2017
  else if ex gVS2017Ent then some gVS2017Ent
  else if ex gVS2017Ult then some gVS2017Ult
  else if ex gVS2015 then some gVS2015
  else none

/-- Go `filepath.Base` followed by `strings.Split(·, ".")[0]`, as `build`
computes `projname` (modelled with "/" separators, as on the xcode side). -/
def projnameOf (madeProj : String) : String :=
  (((madeProj.splitOn "/").getLastD "").splitOn ".").headD ""

/-- The command `build` constructs for one task: executable and argument
list.  `none` means the process panicked inside `checkWinCompiler` before
any build command was constructed, so no task's build command runs. -/
def buildCmd (goos : String) (ex : String → Bool) (threads : Nat) (ios : Bool)
    (config : String) (t : Task) : Option (String × List String) :=
  if goos == "windows" then
    match checkWinCompiler ex with
    | none => none
    | some p =>
      some (p ++ "/devenv.com",
        [t.MadeProj, "/build", config ++ "|x64", "/projectconfig", config])
  else
    some ("xcodebuild",
      ["-project", t.MadeProj, "-target", projnameOf t.MadeProj ++ "." ++ config,
       "-configuration", "Default"]
      ++ (if threads != 0 then ["-jobs", toString threads] else [])
      ++ (if ios then ["-arch", "arm64", "-sdk", "iphoneos"] else [])
      ++ ["build"])

/-! ### Process watchdog (modelled from the spec)

Modelled from the spec: the ProcessWatchdog component of spec section 4.4
("Maintains a decayed inactivity score: each near-zero-utilization sample
increases the score by a fixed increment; each active sample multiplies the
score down by a decay factor (<1).  When the score exceeds a threshold, the
watchdog forcibly terminates the process and reports a distinct stuck task
error") is not present among the repository files under src/; only the
spec documents it.  A sample is `true` when the process showed near-zero
CPU utilization over the sampling interval. -/

structure Watchdog where
  increment : ℚ
  decay : ℚ
  threshold : ℚ
deriving DecidableEq, Repr

/-- Modelled from the spec: one sampling step of the decayed inactivity
score. -/
def wdStep (w : Watchdog) (score : ℚ) (nearZero : Bool) : ℚ :=
  if nearZero then score + w.increment else score * w.decay

/-- Modelled from the spec: the score after a whole sample sequence. -/
def wdScore (w : Watchdog) (samples : List Bool) : ℚ :=
  samples.foldl (wdStep w) 0

/-- Modelled from the spec: the watchdog checks the score after every
sample and kills the process the first time it exceeds the threshold. -/
def wdRunAux (w : Watchdog) : ℚ → List Bool → Bool
  | _, [] => false
  | score, b :: rest =>
    let s2 := wdStep w score b
    if w.threshold < s2 then true else wdRunAux w s2 rest

/-- Modelled from the spec: was the process killed during the run? -/
def wdKilled (w : Watchdog) (samples : List Bool) : Bool :=
  wdRunAux w 0 samples

/-- Modelled from the spec: what the watchdog reports for the run; a kill
surfaces as the distinct stuck-task error. -/
inductive WdReport where
  | stuck
  | finished
deriving DecidableEq, Repr

/-- Modelled from the spec: report of a run. -/
def wdReport (w : Watchdog) (samples : List Bool) : WdReport :=
  if wdKilled w samples then .stuck else .finished

/-! ### The scheduler loop of `run` as a labelled transition system

Per-task mutable state of the Go program, keyed by position in
`Job.Tasks`: `complete` is the atomic `Task.Complete` flag, `running` the
plain `Task.Running` flag, `taskErr` the `Task.Err` field.  `admitted`
records that the scheduler sent the task into the `tasks` channel (the
moment `run` sets `task.Running = true` and does `tasks <- task`);
`drained` that its result was consumed from the `results` channel.
`numRunning`, `isAloneLaunched`, `cost` and `err` are the locals of `run`;
`drainLog` is the order in which results were drained. -/
structure SchedState where
  admitted : Nat → Bool
  complete : Nat → Bool
  running : Nat → Bool
  drained : Nat → Bool
  taskErr : Nat → Option Nat
  numRunning : Int
  isAloneLaunched : Bool
  err : Option Nat
  cost : Int
  drainLog : List Nat

/-- Pointwise update of a boolean task map. -/
def upd (f : Nat → Bool) (i : Nat) (b : Bool) : Nat → Bool :=
  fun j => if j = i then b else f j

/-- The fixed inputs of one `run`: the job, the preferences, the platform,
the `--continue` flag, and the (abstracted) outcome every task's build
command would deliver (`none` = success, `some e` = the build error). -/
structure Params where
  job : Job
  prefs : Prefs
  goos : String
  continueErr : Bool
  buildErr : Nat → Option Nat

/-- Is task `i` admitted with its result not yet drained?  This is exactly
what the `numRunning` counter of `run` counts. -/
def inflightB (s : SchedState) (i : Nat) : Bool :=
  s.admitted i && !s.drained i

/-- Effect of the admission body of `run` on task `i` (of data `t`):
`isAloneLaunched = isAloneProject(task); task.Running = true;
cost += task.Cost; numRunning++; tasks <- task`. -/
def admitEffect (P : Params) (s : SchedState) (i : Nat) (t : Task) : SchedState :=
  { s with
    running := upd s.running i true
    admitted := upd s.admitted i true
    numRunning := s.numRunning + 1
    isAloneLaunched := isAloneProject P.goos P.prefs t
    cost := s.cost + t.Cost }

/-- Effect of a worker finishing task `i`'s build: `task.SetCompleted()`
(which sets both `Running` and the atomic `Complete` flag) and recording
`task.Err` from the build's outcome before sending into `results`. -/
def completeEffect (P : Params) (s : SchedState) (i : Nat) : SchedState :=
  { s with
    complete := upd s.complete i true
    running := upd s.running i true
    taskErr := fun j => if j = i then P.buildErr i else s.taskErr j }

/-- Effect of the drain body of `run` on a result for task `i`:
`tasksCompleted++; numRunning--; isAloneLaunched = false;
cost -= task.Cost; if task.Err != nil and err == nil and not ContinueErr
then err = task.Err`. -/
def drainEffect (P : Params) (s : SchedState) (i : Nat) (t : Task) : SchedState :=
  { s with
    drained := upd s.drained i true
    numRunning := s.numRunning - 1
    isAloneLaunched := false
    cost := s.cost - t.Cost
    drainLog := s.drainLog ++ [i]
    err :=
      match s.taskErr i with
      | some e => if s.err = none && !P.continueErr then some e else s.err
      | none => s.err }

/-- The admission guard of `run` for task `i` of data `t`, as one boolean:
`!task.Running && !task.IsCompleted()`, then `!task.HasPendingDeps(job)`,
then `(!isAloneProject(task) && !isAloneLaunched) || numRunning == 0`. -/
def admitCond (P : Params) (s : SchedState) (i : Nat) (t : Task) : Bool :=
  !s.running i && !s.complete i
    && (pendingDepsAux P.job.Tasks.length s.complete t.Inputs == some false)
    && ((!isAloneProject P.goos P.prefs t && !s.isAloneLaunched)
        || s.numRunning == 0)

/-- One interleaved step of `run` together with its workers.  Admission
steps carry `s.err = none` because the admission pass only starts when the
outer loop guard `err == nil` held and `err` is only assigned inside drain
passes.  Worker completion may interleave anywhere; a result can be
drained only after its worker completed the task and sent it. -/
inductive Step (P : Params) : SchedState → SchedState → Prop where
  | admitTask (s : SchedState) (i : Nat) (t : Task)
      (ht : P.job.Tasks.get? i = some t)
      (herr : s.err = none)
      (hcond : admitCond P s i t = true) :
      Step P s (admitEffect P s i t)
  | complete (s : SchedState) (i : Nat)
      (hadm : s.admitted i = true)
      (hcomp : s.complete i = false) :
      Step P s (completeEffect P s i)
  | drain (s : SchedState) (i : Nat) (t : Task)
      (ht : P.job.Tasks.get? i = some t)
      (hadm : s.admitted i = true)
      (hcomp : s.complete i = true)
      (hdr : s.drained i = false) :
      Step P s (drainEffect P s i t)

/-- States reachable through any interleaving of scheduler and workers. -/
def Reach (P : Params) (s₁ s₂ : SchedState) : Prop :=
  Relation.ReflTransGen (Step P) s₁ s₂

/-- The state `run` starts from, after the caller marked the tasks with
`skip i = true` via `SetCompleted` (which sets `Running` and `Complete`):
the pre-run filtering of `--start`, `--only`, `--not`, `--deps` and the
ignore preference. -/
def initState (skip : Nat → Bool) : SchedState :=
  { admitted := fun _ => false
    complete := skip
    running := skip
    drained := fun _ => false
    taskErr := fun _ => none
    numRunning := 0
    isAloneLaunched := false
    err := none
    cost := 0
    drainLog := [] }

/-- The count `tasksCompleted` maintains: number of completed tasks (its
initial scan counts completed tasks, each drain increments it once). -/
def completedCount (P : Params) (s : SchedState) : Nat :=
  (List.range P.job.Tasks.length).countP (fun i => s.complete i)

/-- Number of admitted-but-undrained tasks. -/
def inflightCount (P : Params) (s : SchedState) : Nat :=
  (List.range P.job.Tasks.length).countP (fun i => inflightB s i)

/-- The error of the first failing task of a drain sequence: what the
policy "the first failure in drain order becomes the run's error" keeps. -/
def firstErr (buildErr : Nat → Option Nat) : List Nat → Option Nat
  | [] => none
  | i :: rest =>
    match buildErr i with
    | some e => some e
    | none => firstErr buildErr rest

theorem upd_same (f : Nat → Bool) (i : Nat) (b : Bool) : upd f i b i = b := by
  simp [upd]

theorem upd_other (f : Nat → Bool) (i : Nat) (b : Bool) (j : Nat) (h : j ≠ i) :
    upd f i b j = f j := by
  simp [upd, h]

theorem pendingDeps_false {n : Nat} {cm : Nat → Bool} {ds : List Nat}
    (h : pendingDepsAux n cm ds = some false) : ∀ d ∈ ds, d < n ∧ cm d = true := by
  induction ds with
  | nil => simp
  | cons d ds ih =>
    intro x hx
    by_cases hd : d < n
    · by_cases hc : cm d = true
      · have h' : pendingDepsAux n cm ds = some false := by
          simpa [pendingDepsAux, hd, hc] using h
        rcases List.mem_cons.mp hx with rfl | hmem
        · exact ⟨hd, hc⟩
        · exact ih h' x hmem
      · simp [pendingDepsAux, hd, hc] at h
    · simp [pendingDepsAux, hd] at h

theorem pendingDeps_isSome (n : Nat) (cm : Nat → Bool) (ds : List Nat)
    (h : ∀ d ∈ ds, d < n) : (pendingDepsAux n cm ds).isSome = true := by
  induction ds with
  | nil => simp [pendingDepsAux]
  | cons d ds ih =>
    have hd : d < n := h d (List.mem_cons_self d ds)
    by_cases hc : cm d = true
    · simpa [pendingDepsAux, hd, hc] using ih (fun x hx => h x (List.mem_cons_of_mem d hx))
    · simp [pendingDepsAux, hd, hc]

theorem firstErr_append (be : Nat → Option Nat) (l : List Nat) (i : Nat) :
    firstErr be (l ++ [i]) =
      match firstErr be l with
      | some e => some e
      | none => be i := by
  induction l with
  | nil =>
    cases h : be i <;> simp [firstErr, h]
  | cons a l ih =>
    cases h : be a <;> simp [firstErr, h, ih]

/-- A list with no duplicates: flipping one member of a predicate from
false to true raises the count by one. -/
theorem countP_flip (l : List Nat) (f g : Nat → Bool) (i : Nat)
    (hmem : i ∈ l) (hnd : l.Nodup) (hfi : f i = false) (hgi : g i = true)
    (hagree : ∀ j, j ≠ i → g j = f j) :
    l.countP g = l.countP f + 1 := by
  induction l with
  | nil => cases hmem
  | cons a l ih =>
    have hnd' : l.Nodup := (List.nodup_cons.mp hnd).2
    have hna : a ∉ l := (List.nodup_cons.mp hnd).1
    rcases List.mem_cons.mp hmem with rfl | hmem'
    · have hcong : l.countP g = l.countP f := by
        apply List.countP_congr
        intro j hj
        rw [hagree j (fun hji => hna (hji ▸ hj))]
      simp [List.countP_cons, hfi, hgi, hcong]
    · have hai : a ≠ i := fun h => hna (h ▸ hmem')
      have hga : g a = f a := hagree a hai
      cases hfa : f a <;>
        simp [List.countP_cons, hga, hfa, ih hmem' hnd']

/-- Two distinct members both satisfying the predicate force a count of at
least two. -/
theorem two_le_countP (l : List Nat) (p : Nat → Bool) (i j : Nat)
    (hi : i ∈ l) (hj : j ∈ l) (hij : i ≠ j)
    (hpi : p i = true) (hpj : p j = true) : 2 ≤ l.countP p := by
  have hif : i ∈ l.filter p := List.mem_filter.mpr ⟨hi, hpi⟩
  have hjf : j ∈ l.filter p := List.mem_filter.mpr ⟨hj, hpj⟩
  rw [List.countP_eq_length_filter]
  rcases hf : l.filter p with _ | ⟨a, _ | ⟨b, rest⟩⟩
  · rw [hf] at hif; cases hif
  · rw [hf] at hif hjf
    rcases List.mem_singleton.mp hif with rfl
    rcases List.mem_singleton.mp hjf with rfl
    exact absurd rfl hij
  · simp

/-- The inductive invariant of the scheduler loop: everything the claims
about `run` need, preserved by every interleaved step. -/
structure Inv (P : Params) (skip : Nat → Bool) (s : SchedState) : Prop where
  adm_lt : ∀ i, s.admitted i = true → i < P.job.Tasks.length
  run_eq : ∀ i, s.running i = (s.admitted i || skip i)
  comp_src : ∀ i, s.complete i = true → s.admitted i = true ∨ skip i = true
  skip_comp : ∀ i, skip i = true → s.complete i = true
  skip_nadm : ∀ i, skip i = true → s.admitted i = false
  drain_adm : ∀ i, s.drained i = true → s.admitted i = true ∧ s.complete i = true
  nr_count : s.numRunning = (inflightCount P s : Int)
  alone_launch : ∀ i t, inflightB s i = true → P.job.Tasks.get? i = some t →
      isAloneProject P.goos P.prefs t = true → s.isAloneLaunched = true
  launch_one : s.isAloneLaunched = true → inflightCount P s ≤ 1
  deps_comp : ∀ i t, s.admitted i = true → P.job.Tasks.get? i = some t →
      ∀ d ∈ t.Inputs, s.complete d = true
  task_err : ∀ i, s.taskErr i =
      (if s.admitted i && s.complete i then P.buildErr i else none)
  err_log : P.continueErr = false → s.err = firstErr P.buildErr s.drainLog
  cont_err : P.continueErr = true → s.err = none
  nonwin_launch : P.goos ≠ "windows" → s.isAloneLaunched = false

theorem init_inv (P : Params) (skip : Nat → Bool) : Inv P skip (initState skip) where
  adm_lt := fun i h => by simp [initState] at h
  run_eq := fun i => by simp [initState]
  comp_src := fun i h => Or.inr h
  skip_comp := fun i h => h
  skip_nadm := fun i _ => rfl
  drain_adm := fun i h => by simp [initState] at h
  nr_count := by simp [initState, inflightCount, inflightB]
  alone_launch := fun i t h => by simp [initState, inflightB] at h
  launch_one := fun h => by simp [initState] at h
  deps_comp := fun i t h => by simp [initState] at h
  task_err := fun i => by simp [initState]
  err_log := fun _ => rfl
  cont_err := fun _ => rfl
  nonwin_launch := fun _ => rfl

theorem upd_true_of (f : Nat → Bool) (i j : Nat) (h : f j = true) :
    upd f i true j = true := by
  by_cases hji : j = i
  · subst hji; exact upd_same f j true
  · rw [upd_other f i true j hji]; exact h

theorem isAloneProject_nonwin {goos : String} (prefs : Prefs) (t : Task)
    (h : goos ≠ "windows") : isAloneProject goos prefs t = false := by
  simp [isAloneProject, h]

theorem admitCond_elim {P : Params} {s : SchedState} {i : Nat} {t : Task}
    (h : admitCond P s i t = true) :
    s.running i = false ∧ s.complete i = false ∧
    pendingDepsAux P.job.Tasks.length s.complete t.Inputs = some false ∧
    ((isAloneProject P.goos P.prefs t = false ∧ s.isAloneLaunched = false) ∨
      s.numRunning = 0) := by
  simp only [admitCond, Bool.and_eq_true, Bool.or_eq_true, Bool.not_eq_true',
    beq_iff_eq] at h
  tauto

theorem get?_lt {l : List Task} {i : Nat} {t : Task} (h : l.get? i = some t) :
    i < l.length := by
  by_contra hn
  rw [List.get?_eq_none.mpr (Nat.le_of_not_lt hn)] at h
  cases h

/-- When the inflight count is zero, no task is inflight. -/
theorem no_inflight_of_count_zero {P : Params} {skip : Nat → Bool} {s : SchedState}
    (inv : Inv P skip s) (h : inflightCount P s = 0) :
    ∀ j, inflightB s j = false := by
  intro j
  by_cases hj : j < P.job.Tasks.length
  · have := List.countP_eq_zero.mp h
    by_contra hc
    exact this j (List.mem_range.mpr hj) (Bool.not_eq_false _ ▸ hc)
  · by_contra hc
    have hb : inflightB s j = true := Bool.not_eq_false _ ▸ hc
    have : s.admitted j = true := ((Bool.and_eq_true _ _).mp hb).1
    exact hj (inv.adm_lt j this)

/-- Every interleaved step of the scheduler and its workers preserves the
invariant. -/
theorem step_inv {P : Params} {skip : Nat → Bool} {s s' : SchedState}
    (inv : Inv P skip s) (hstep : Step P s s') : Inv P skip s' := by
  cases hstep with
  | admitTask i t ht herr hcond =>
    obtain ⟨hrun, hcomp, hdeps, hgate⟩ := admitCond_elim hcond
    have hin : i < P.job.Tasks.length := get?_lt ht
    have hadm0 : s.admitted i = false := by
      have := inv.run_eq i
      rw [hrun] at this
      exact (Bool.or_eq_false_iff.mp this.symm).1
    have hskip0 : skip i = false := by
      have := inv.run_eq i
      rw [hrun] at this
      exact (Bool.or_eq_false_iff.mp this.symm).2
    have hdr0 : s.drained i = false := by
      by_contra hc
      have := (inv.drain_adm i (Bool.not_eq_false _ ▸ hc)).1
      rw [hadm0] at this; cases this
    have hinfl0 : inflightB s i = false := by
      simp [inflightB, hadm0]
    have hinfl1 : inflightB (admitEffect P s i t) i = true := by
      simp [inflightB, admitEffect, upd_same, hdr0]
    have hagree : ∀ j, j ≠ i →
        inflightB (admitEffect P s i t) j = inflightB s j := by
      intro j hj
      simp [inflightB, admitEffect, upd_other s.admitted i true j hj]
    have hflip : inflightCount P (admitEffect P s i t) = inflightCount P s + 1 :=
      countP_flip (List.range P.job.Tasks.length) (fun j => inflightB s j)
        (fun j => inflightB (admitEffect P s i t) j) i (List.mem_range.mpr hin)
        (List.nodup_range _) hinfl0 hinfl1 hagree
    refine
      { adm_lt := ?_, run_eq := ?_, comp_src := ?_, skip_comp := ?_
        skip_nadm := ?_, drain_adm := ?_, nr_count := ?_, alone_launch := ?_
        launch_one := ?_, deps_comp := ?_, task_err := ?_, err_log := ?_
        cont_err := ?_, nonwin_launch := ?_ }
    · intro j hj
      by_cases hji : j = i
      · exact hji ▸ hin
      · rw [show (admitEffect P s i t).admitted j = s.admitted j from
          upd_other s.admitted i true j hji] at hj
        exact inv.adm_lt j hj
    · intro j
      by_cases hji : j = i
      · subst hji
        show upd s.running j true j = (upd s.admitted j true j || skip j)
        rw [upd_same, upd_same, Bool.true_or]
      · show upd s.running i true j = (upd s.admitted i true j || skip j)
        rw [upd_other s.running i true j hji, upd_other s.admitted i true j hji]
        exact inv.run_eq j
    · intro j hj
      rcases inv.comp_src j hj with h | h
      · exact Or.inl (upd_true_of s.admitted i j h)
      · exact Or.inr h
    · exact inv.skip_comp
    · intro j hj
      by_cases hji : j = i
      · exact absurd (hji ▸ hj) (by simp [hskip0])
      · show upd s.admitted i true j = false
        rw [upd_other s.admitted i true j hji]
        exact inv.skip_nadm j hj
    · intro j hj
      exact ⟨upd_true_of s.admitted i j (inv.drain_adm j hj).1, (inv.drain_adm j hj).2⟩
    · show s.numRunning + 1 = (inflightCount P (admitEffect P s i t) : Int)
      rw [hflip, inv.nr_count]
      push_cast
      ring
    · intro j t' hj ht' halone
      rcases hgate with ⟨hna, hnl⟩ | hnr
      · by_cases hji : j = i
        · subst hji
          rw [ht] at ht'
          cases ht'
          rw [halone] at hna
          cases hna
        · rw [hagree j hji] at hj
          have := inv.alone_launch j t' hj ht' halone
          rw [hnl] at this
          cases this
      · have hz : inflightCount P s = 0 := by
          have := inv.nr_count
          rw [hnr] at this
          exact_mod_cast this.symm
        by_cases hji : j = i
        · subst hji
          rw [ht] at ht'
          cases ht'
          exact halone
        · rw [hagree j hji] at hj
          rw [no_inflight_of_count_zero inv hz j] at hj
          cases hj
    · intro hl
      rcases hgate with ⟨hna, _⟩ | hnr
      · have : (admitEffect P s i t).isAloneLaunched = false := by
          show isAloneProject P.goos P.prefs t = false
          exact hna
        rw [this] at hl
        cases hl
      · have hz : inflightCount P s = 0 := by
          have := inv.nr_count
          rw [hnr] at this
          exact_mod_cast this.symm
        rw [hflip, hz]
    · intro j t' hj ht' d hd
      by_cases hji : j = i
      · subst hji
        rw [ht] at ht'
        cases ht'
        exact (pendingDeps_false hdeps d hd).2
      · rw [show (admitEffect P s i t).admitted j = s.admitted j from
          upd_other s.admitted i true j hji] at hj
        exact inv.deps_comp j t' hj ht' d hd
    · intro j
      by_cases hji : j = i
      · subst hji
        show s.taskErr j = _
        rw [inv.task_err j]
        simp [admitEffect, hadm0, hcomp, upd_same]
      · show s.taskErr j = _
        rw [inv.task_err j]
        simp [admitEffect, upd_other s.admitted i true j hji]
    · exact inv.err_log
    · exact inv.cont_err
    · intro hw
      show isAloneProject P.goos P.prefs t = false
      exact isAloneProject_nonwin P.prefs t hw
  | complete i hadm hcomp =>
    have hinfl_eq : ∀ j, inflightB (completeEffect P s i) j = inflightB s j :=
      fun _ => rfl
    refine
      { adm_lt := inv.adm_lt, run_eq := ?_, comp_src := ?_
        skip_nadm := inv.skip_nadm, skip_comp := ?_, drain_adm := ?_
        nr_count := inv.nr_count, alone_launch := ?_, launch_one := inv.launch_one
        deps_comp := ?_, task_err := ?_, err_log := inv.err_log
        cont_err := inv.cont_err, nonwin_launch := inv.nonwin_launch }
    · intro j
      by_cases hji : j = i
      · subst hji
        show upd s.running j true j = (s.admitted j || skip j)
        rw [upd_same, hadm, Bool.true_or]
      · show upd s.running i true j = (s.admitted j || skip j)
        rw [upd_other s.running i true j hji]
        exact inv.run_eq j
    · intro j hj
      by_cases hji : j = i
      · exact Or.inl (hji ▸ hadm)
      · rw [show (completeEffect P s i).complete j = s.complete j from
          upd_other s.complete i true j hji] at hj
        exact inv.comp_src j hj
    · intro j hj
      exact upd_true_of s.complete i j (inv.skip_comp j hj)
    · intro j hj
      exact ⟨(inv.drain_adm j hj).1, upd_true_of s.complete i j (inv.drain_adm j hj).2⟩
    · intro j t' hj ht' halone
      exact inv.alone_launch j t' hj ht' halone
    · intro j t' hj ht' d hd
      exact upd_true_of s.complete i d (inv.deps_comp j t' hj ht' d hd)
    · intro j
      by_cases hji : j = i
      · subst hji
        simp [completeEffect, upd, hadm]
      · simpa [completeEffect, upd, hji] using inv.task_err j
  | drain i t ht hadm hcomp hdr =>
    have hin : i < P.job.Tasks.length := get?_lt ht
    have hinfl1 : inflightB s i = true := by simp [inflightB, hadm, hdr]
    have hinfl0 : inflightB (drainEffect P s i t) i = false := by
      simp [inflightB, drainEffect, upd_same]
    have hagree : ∀ j, j ≠ i →
        inflightB s j = inflightB (drainEffect P s i t) j := by
      intro j hj
      simp [inflightB, drainEffect, upd_other s.drained i true j hj]
    have hflip : inflightCount P s = inflightCount P (drainEffect P s i t) + 1 :=
      countP_flip (List.range P.job.Tasks.length)
        (fun j => inflightB (drainEffect P s i t) j) (fun j => inflightB s j) i
        (List.mem_range.mpr hin) (List.nodup_range _) hinfl0 hinfl1 hagree
    have hTE : s.taskErr i = P.buildErr i := by
      rw [inv.task_err i, hadm, hcomp]
      rfl
    refine
      { adm_lt := inv.adm_lt, run_eq := inv.run_eq, comp_src := inv.comp_src
        skip_comp := inv.skip_comp, skip_nadm := inv.skip_nadm, drain_adm := ?_
        nr_count := ?_, alone_launch := ?_, launch_one := ?_
        deps_comp := inv.deps_comp, task_err := inv.task_err, err_log := ?_
        cont_err := ?_, nonwin_launch := fun _ => rfl }
    · intro j hj
      by_cases hji : j = i
      · exact ⟨hji ▸ hadm, hji ▸ hcomp⟩
      · rw [show (drainEffect P s i t).drained j = s.drained j from
          upd_other s.drained i true j hji] at hj
        exact inv.drain_adm j hj
    · show s.numRunning - 1 = (inflightCount P (drainEffect P s i t) : Int)
      rw [inv.nr_count, hflip]
      push_cast
      ring
    · intro j t' hj ht' halone
      by_cases hji : j = i
      · subst hji
        rw [hinfl0] at hj
        cases hj
      · rw [← hagree j hji] at hj
        have hl : s.isAloneLaunched = true := inv.alone_launch j t' hj ht' halone
        have hcount := inv.launch_one hl
        have h2 : 2 ≤ inflightCount P s :=
          two_le_countP (List.range P.job.Tasks.length) (fun k => inflightB s k)
            i j (List.mem_range.mpr hin)
            (List.mem_range.mpr (inv.adm_lt j (((Bool.and_eq_true _ _).mp hj).1)))
            (fun h => hji h.symm) hinfl1 hj
        exfalso
        omega
    · intro hl
      exact absurd hl (by simp [drainEffect])
    · intro hce
      have hpre := inv.err_log hce
      show (match s.taskErr i with
        | some e => if s.err = none && !P.continueErr then some e else s.err
        | none => s.err) = firstErr P.buildErr (s.drainLog ++ [i])
      rw [firstErr_append, hTE, ← hpre]
      cases he : s.err with
      | some e =>
        cases hb : P.buildErr i <;> simp [hce, he]
      | none =>
        cases hb : P.buildErr i <;> simp [hce, he]
    · intro hce
      have hpre := inv.cont_err hce
      show (match s.taskErr i with
        | some e => if s.err = none && !P.continueErr then some e else s.err
        | none => s.err) = none
      cases hb : s.taskErr i <;> simp [hce, hpre]

/-- The invariant holds in every reachable state. -/
theorem reach_inv {P : Params} {skip : Nat → Bool} {s : SchedState}
    (h : Reach P (initState skip) s) : Inv P skip s := by
  induction h with
  | refl => exact init_inv P skip
  | tail _ hstep ih => exact step_inv ih hstep

/-- Once the run error is set, every further interleaved step leaves the
admitted set and the error unchanged except for drains, which never admit:
admission requires `err = none` and only drains touch `err`. -/
theorem err_frozen {P : Params} {s s' : SchedState} {e : Nat}
    (he : s.err = some e) (h : Relation.ReflTransGen (Step P) s s') :
    (∀ i, s'.admitted i = s.admitted i) ∧ s'.err = some e := by
  induction h with
  | refl => exact ⟨fun _ => rfl, he⟩
  | @tail b c hr hstep ih =>
    obtain ⟨hadm, herr⟩ := ih
    cases hstep with
    | admitTask i t ht herr2 hcond => rw [herr] at herr2; cases herr2
    | complete i hadm2 hcomp => exact ⟨fun j => hadm j, herr⟩
    | drain i t ht hadm2 hcomp hdr =>
      refine ⟨fun j => hadm j, ?_⟩
      show (drainEffect P b i t).err = some e
      cases hT : b.taskErr i <;> simp [drainEffect, herr, hT]

/-- An alone-class task inflight forces the inflight count to be exactly
this one task. -/
theorem alone_inflight_unique {P : Params} {skip : Nat → Bool} {s : SchedState}
    (inv : Inv P skip s) {i : Nat} {ti : Task}
    (hi : inflightB s i = true) (hti : P.job.Tasks.get? i = some ti)
    (halone : isAloneProject P.goos P.prefs ti = true) :
    ∀ j, inflightB s j = true → j = i := by
  intro j hj
  by_contra hne
  have hl : s.isAloneLaunched = true := inv.alone_launch i ti hi hti halone
  have hcount := inv.launch_one hl
  have h2 : 2 ≤ inflightCount P s :=
    two_le_countP (List.range P.job.Tasks.length) (fun k => inflightB s k) i j
      (List.mem_range.mpr (inv.adm_lt i ((Bool.and_eq_true _ _).mp hi).1))
      (List.mem_range.mpr (inv.adm_lt j ((Bool.and_eq_true _ _).mp hj).1))
      (fun h => hne h.symm) hi hj
  rw [inflightCount] at hcount h2
  omega

/-- C1: at most one alone-class task is inflight at any reachable state of
the scheduler loop — two inflight tasks of which one is alone-class
coincide — and from a state where an alone-class task is inflight no
interleaved step makes any further task inflight: the admission guard
`(!isAloneProject(task) && !isAloneLaunched) || numRunning == 0` is then
unsatisfiable, so only worker completions and drains can fire.  (A task is
inflight from the moment `run` marks it Running and sends it to the
workers until its result is drained; a task executing its build is in
particular inflight.) -/
theorem alone_exclusivity (P : Params) (skip : Nat → Bool) (s s' : SchedState)
    (hreach : Reach P (initState skip) s) :
    (∀ i j ti, inflightB s i = true → P.job.Tasks.get? i = some ti →
      isAloneProject P.goos P.prefs ti = true →
      inflightB s j = true → i = j) ∧
    (∀ i ti, inflightB s i = true → P.job.Tasks.get? i = some ti →
      isAloneProject P.goos P.prefs ti = true →
      Step P s s' → ∀ j, inflightB s' j = true → inflightB s j = true) := by
  have inv := reach_inv hreach
  constructor
  · intro i j ti hi hti halone hj
    exact (alone_inflight_unique inv hi hti halone j hj).symm
  · intro i ti hi hti halone hstep j hj'
    have hl : s.isAloneLaunched = true := inv.alone_launch i ti hi hti halone
    have hpos : 0 < inflightCount P s := by
      have : i ∈ List.range P.job.Tasks.length :=
        List.mem_range.mpr (inv.adm_lt i ((Bool.and_eq_true _ _).mp hi).1)
      exact List.countP_pos_iff.mpr ⟨i, this, hi⟩
    cases hstep with
    | admitTask i' t' ht' herr hcond =>
      obtain ⟨-, -, -, hgate⟩ := admitCond_elim hcond
      rcases hgate with ⟨-, hnl⟩ | hnr
      · rw [hl] at hnl; cases hnl
      · exfalso
        rw [inv.nr_count] at hnr
        have : inflightCount P s = 0 := by exact_mod_cast hnr
        omega
    | complete i' hadm hcomp => exact hj'
    | drain i' t' ht' hadm hcomp hdr =>
      by_cases hji : j = i'
      · subst hji
        have : inflightB (drainEffect P s j t') j = false := by
          simp [inflightB, drainEffect, upd_same]
        rw [this] at hj'
        cases hj'
      · rw [show inflightB (drainEffect P s i' t') j = inflightB s j by
          simp [inflightB, drainEffect, upd_other s.drained i' true j hji]] at hj'
        exact hj'

/-- C2: in every reachable state, every admitted (Running) task has all of
its dependency ids completed — in particular at the moment a task is
transitioned to Running — and, when every task's dependency ids are below
the task count, `HasPendingDeps` never indexes `job.Tasks` out of bounds
(it returns an answer rather than the out-of-range panic `none`). -/
theorem deps_completed_before_running (P : Params) (skip : Nat → Bool)
    (s : SchedState) (hreach : Reach P (initState skip) s)
    (hwf : ∀ t ∈ P.job.Tasks, ∀ d ∈ t.Inputs, d < P.job.Tasks.length) :
    (∀ i t, s.admitted i = true → P.job.Tasks.get? i = some t →
      ∀ d ∈ t.Inputs, s.complete d = true) ∧
    (∀ t ∈ P.job.Tasks, ∀ cm : Nat → Bool,
      (pendingDepsAux P.job.Tasks.length cm t.Inputs).isSome = true) := by
  have inv := reach_inv hreach
  exact ⟨inv.deps_comp,
    fun t htm cm => pendingDeps_isSome _ cm t.Inputs (hwf t htm)⟩

/-- C4 (amended): with continue-on-error off, at every reachable state the
run error equals the `Err` of the first failed task in drain order (`none`
when no drained task failed): the first failure sets it, later failures
never replace it, successful completions never set it. -/
theorem first_error_policy (P : Params) (skip : Nat → Bool) (s : SchedState)
    (hreach : Reach P (initState skip) s) (hce : P.continueErr = false) :
    s.err = firstErr P.buildErr s.drainLog :=
  (reach_inv hreach).err_log hce

/-- C5: stop-on-error semantics.  Once the drain pass has recorded a
failure (err = some e) no task is ever admitted afterwards and the error
is never replaced; tasks already handed to the workers may still complete
and have their results drained (the drain step stays enabled regardless of
the recorded error); and with continue-on-error on the run error stays
`none`, so the loop guard `err == nil` never stops admission. -/
theorem stop_on_error (P : Params) (skip : Nat → Bool) (s : SchedState)
    (hreach : Reach P (initState skip) s) :
    (∀ e s', s.err = some e → Relation.ReflTransGen (Step P) s s' →
      (∀ i, s'.admitted i = s.admitted i) ∧ s'.err = some e) ∧
    (∀ i t, P.job.Tasks.get? i = some t → s.admitted i = true →
      s.complete i = true → s.drained i = false →
      Step P s (drainEffect P s i t)) ∧
    (P.continueErr = true → s.err = none) := by
  refine ⟨fun e s' he hr => err_frozen he hr, ?_, (reach_inv hreach).cont_err⟩
  intro i t ht hadm hcomp hdr
  exact Step.drain s i t ht hadm hcomp hdr

/-- C7: a task marked completed before `run` starts (`--start`, `--only`,
`--not`, `--deps` filtering or the ignore preference, all via
`SetCompleted`) is counted by the initial `tasksCompleted` scan, stays
completed in every reachable state, is never admitted to the `tasks`
channel — so its build command is never invoked — and no error is ever
recorded on it. -/
theorem mark_skipped (P : Params) (skip : Nat → Bool) (s : SchedState) (i : Nat)
    (hreach : Reach P (initState skip) s) (hskip : skip i = true) :
    s.complete i = true ∧ s.admitted i = false ∧ s.taskErr i = none ∧
    completedCount P (initState skip) =
      (List.range P.job.Tasks.length).countP (fun j => skip j) := by
  have inv := reach_inv hreach
  refine ⟨inv.skip_comp i hskip, inv.skip_nadm i hskip, ?_, rfl⟩
  rw [inv.task_err i, inv.skip_nadm i hskip]
  simp

/-- C10: off Windows, `isAloneProject` is false for every task whatever
the Alone flags in the preferences say, `isAloneLaunched` stays false in
every reachable state, and the admission guard
`(!isAloneProject(task) && !isAloneLaunched) || numRunning == 0` holds for
every task — alone-flagged tasks are admitted exactly like ordinary
tasks. -/
theorem nonwindows_alone_disabled (P : Params) (skip : Nat → Bool)
    (s : SchedState) (hreach : Reach P (initState skip) s)
    (hgoos : P.goos ≠ "windows") :
    (∀ t, isAloneProject P.goos P.prefs t = false) ∧
    s.isAloneLaunched = false ∧
    (∀ t, ((!isAloneProject P.goos P.prefs t && !s.isAloneLaunched)
      || s.numRunning == 0) = true) := by
  have inv := reach_inv hreach
  have h1 : ∀ t, isAloneProject P.goos P.prefs t = false :=
    fun t => isAloneProject_nonwin P.prefs t hgoos
  have h2 := inv.nonwin_launch hgoos
  refine ⟨h1, h2, fun t => ?_⟩
  rw [h1 t, h2]
  rfl

/-! ### The scheduler loop as rounds

`run` alternates a full admission pass over `job.Tasks` with a drain pass.
Under the fairness assumption of the termination claim — every admitted
task's build eventually delivers a result — the canonical execution is by
rounds: one admission pass, then every admitted build finishes, then the
drain pass consumes every available result, then the loop guard
`tasksCompleted < len(job.Tasks) && err == nil` is re-checked. -/

/-- Body of the admission pass of `run` at index `i`. -/
def passBody (P : Params) (s : SchedState) (i : Nat) : SchedState :=
  match P.job.Tasks.get? i with
  | some t => if admitCond P s i t then admitEffect P s i t else s
  | none => s

/-- The admission pass: one in-order scan over `job.Tasks`. -/
def admissionPass (P : Params) (s : SchedState) : SchedState :=
  (List.range P.job.Tasks.length).foldl (passBody P) s

/-- Body of "every admitted build delivers": finish task `i` if admitted
and not yet completed. -/
def completeBody (P : Params) (s : SchedState) (i : Nat) : SchedState :=
  if s.admitted i && !s.complete i then completeEffect P s i else s

/-- All admitted builds finish. -/
def completeAll (P : Params) (s : SchedState) : SchedState :=
  (List.range P.job.Tasks.length).foldl (completeBody P) s

/-- Body of the drain pass: consume the result of task `i` if available. -/
def drainBody (P : Params) (s : SchedState) (i : Nat) : SchedState :=
  match P.job.Tasks.get? i with
  | some t =>
    if s.admitted i && s.complete i && !s.drained i then drainEffect P s i t
    else s
  | none => s

/-- The drain pass consumes every available result. -/
def drainAll (P : Params) (s : SchedState) : SchedState :=
  (List.range P.job.Tasks.length).foldl (drainBody P) s

/-- One round of the scheduler loop body. -/
def schedRound (P : Params) (s : SchedState) : SchedState :=
  drainAll P (completeAll P (admissionPass P s))

/-- The loop guard of `run`: `tasksCompleted < len(job.Tasks) && err == nil`. -/
def loopGuard (P : Params) (s : SchedState) : Bool :=
  decide (completedCount P s < P.job.Tasks.length) && (s.err == none)

/-- The scheduler loop, executed by rounds with the given fuel. -/
def runRounds (P : Params) : Nat → SchedState → SchedState
  | 0, s => s
  | fuel + 1, s => if loopGuard P s then runRounds P fuel (schedRound P s) else s

theorem admitCond_intro {P : Params} {s : SchedState} {i : Nat} {t : Task}
    (h1 : s.running i = false) (h2 : s.complete i = false)
    (h3 : pendingDepsAux P.job.Tasks.length s.complete t.Inputs = some false)
    (h4 : (isAloneProject P.goos P.prefs t = false ∧ s.isAloneLaunched = false) ∨
      s.numRunning = 0) :
    admitCond P s i t = true := by
  simp only [admitCond, Bool.and_eq_true, Bool.or_eq_true, Bool.not_eq_true',
    beq_iff_eq]
  tauto

theorem pendingDeps_all {n : Nat} {cm : Nat → Bool} {ds : List Nat}
    (h : ∀ d ∈ ds, d < n ∧ cm d = true) : pendingDepsAux n cm ds = some false := by
  induction ds with
  | nil => rfl
  | cons d ds ih =>
    obtain ⟨hd, hc⟩ := h d (List.mem_cons_self d ds)
    rw [show pendingDepsAux n cm (d :: ds) = pendingDepsAux n cm ds by
      simp [pendingDepsAux, hd, hc]]
    exact ih (fun x hx => h x (List.mem_cons_of_mem d hx))

theorem passBody_complete (P : Params) (s : SchedState) (a : Nat) :
    (passBody P s a).complete = s.complete := by
  unfold passBody
  cases hg : P.job.Tasks.get? a with
  | none => rfl
  | some t => by_cases hc : admitCond P s a t = true <;> simp [hc, admitEffect]

theorem passBody_err (P : Params) (s : SchedState) (a : Nat) :
    (passBody P s a).err = s.err := by
  unfold passBody
  cases hg : P.job.Tasks.get? a with
  | none => rfl
  | some t => by_cases hc : admitCond P s a t = true <;> simp [hc, admitEffect]

theorem passBody_admitted_mono (P : Params) (s : SchedState) (a j : Nat)
    (h : s.admitted j = true) : (passBody P s a).admitted j = true := by
  unfold passBody
  cases hg : P.job.Tasks.get? a with
  | none => exact h
  | some t =>
    by_cases hc : admitCond P s a t = true <;>
      simp [hc, admitEffect, upd_true_of s.admitted a j h, h]

theorem completeBody_admitted (P : Params) (s : SchedState) (a : Nat) :
    (completeBody P s a).admitted = s.admitted := by
  unfold completeBody
  by_cases hc : (s.admitted a && !s.complete a) = true <;> simp [hc, completeEffect]

theorem completeBody_err (P : Params) (s : SchedState) (a : Nat) :
    (completeBody P s a).err = s.err := by
  unfold completeBody
  by_cases hc : (s.admitted a && !s.complete a) = true <;> simp [hc, completeEffect]

theorem completeBody_complete_mono (P : Params) (s : SchedState) (a j : Nat)
    (h : s.complete j = true) : (completeBody P s a).complete j = true := by
  unfold completeBody
  by_cases hc : (s.admitted a && !s.complete a) = true <;>
    simp [hc, completeEffect, upd_true_of s.complete a j h, h]

theorem completeBody_completes (P : Params) (s : SchedState) (j : Nat)
    (hadm : s.admitted j = true) : (completeBody P s j).complete j = true := by
  unfold completeBody
  by_cases hcp : s.complete j = true
  · by_cases hc : (s.admitted j && !s.complete j) = true <;>
      simp [hc, completeEffect, upd_true_of s.complete j j hcp, hcp]
  · have hc : (s.admitted j && !s.complete j) = true := by
      rw [hadm, Bool.eq_false_iff.mpr hcp]; rfl
    simp [hc, completeEffect, upd_same]

theorem drainBody_admitted (P : Params) (s : SchedState) (a : Nat) :
    (drainBody P s a).admitted = s.admitted := by
  unfold drainBody
  cases hg : P.job.Tasks.get? a with
  | none => rfl
  | some t =>
    by_cases hc : (s.admitted a && s.complete a && !s.drained a) = true <;>
      simp [hc, drainEffect]

theorem drainBody_complete (P : Params) (s : SchedState) (a : Nat) :
    (drainBody P s a).complete = s.complete := by
  unfold drainBody
  cases hg : P.job.Tasks.get? a with
  | none => rfl
  | some t =>
    by_cases hc : (s.admitted a && s.complete a && !s.drained a) = true <;>
      simp [hc, drainEffect]

theorem drainBody_drained_mono (P : Params) (s : SchedState) (a j : Nat)
    (h : s.drained j = true) : (drainBody P s a).drained j = true := by
  unfold drainBody
  cases hg : P.job.Tasks.get? a with
  | none => exact h
  | some t =>
    by_cases hc : (s.admitted a && s.complete a && !s.drained a) = true <;>
      simp [hc, drainEffect, upd_true_of s.drained a j h, h]

theorem drainBody_drains (P : Params) (s : SchedState) (j : Nat)
    (hjN : j < P.job.Tasks.length) (hadm : s.admitted j = true)
    (hcomp : s.complete j = true) : (drainBody P s j).drained j = true := by
  obtain ⟨t, hgt⟩ : ∃ t, P.job.Tasks.get? j = some t := by
    cases hg : P.job.Tasks.get? j with
    | none => rw [List.get?_eq_none] at hg; omega
    | some t => exact ⟨t, rfl⟩
  unfold drainBody
  rw [hgt]
  by_cases hdr : s.drained j = true
  · by_cases hc : (s.admitted j && s.complete j && !s.drained j) = true <;>
      simp [hc, drainEffect, upd_true_of s.drained j j hdr, hdr]
  · have hc : (s.admitted j && s.complete j && !s.drained j) = true := by
      rw [hadm, hcomp, Bool.eq_false_iff.mpr hdr]; rfl
    simp [hc, drainEffect, upd_same]

theorem pass_complete (P : Params) :
    forall (l : List Nat) (s : SchedState), (l.foldl (passBody P) s).complete = s.complete
  | [], _ => rfl
  | a :: l, s => by
    rw [List.foldl_cons, pass_complete P l, passBody_complete]

theorem pass_err (P : Params) :
    forall (l : List Nat) (s : SchedState), (l.foldl (passBody P) s).err = s.err
  | [], _ => rfl
  | a :: l, s => by
    rw [List.foldl_cons, pass_err P l, passBody_err]

theorem pass_admitted_mono (P : Params) :
    forall (l : List Nat) (s : SchedState) (j : Nat),
      s.admitted j = true → (l.foldl (passBody P) s).admitted j = true
  | [], _, _, h => h
  | a :: l, s, j, h => by
    rw [List.foldl_cons]
    exact pass_admitted_mono P l _ j (passBody_admitted_mono P s a j h)

theorem call_admitted (P : Params) :
    forall (l : List Nat) (s : SchedState), (l.foldl (completeBody P) s).admitted = s.admitted
  | [], _ => rfl
  | a :: l, s => by
    rw [List.foldl_cons, call_admitted P l, completeBody_admitted]

theorem call_err (P : Params) :
    forall (l : List Nat) (s : SchedState), (l.foldl (completeBody P) s).err = s.err
  | [], _ => rfl
  | a :: l, s => by
    rw [List.foldl_cons, call_err P l, completeBody_err]

theorem call_complete_mono (P : Params) :
    forall (l : List Nat) (s : SchedState) (j : Nat),
      s.complete j = true → (l.foldl (completeBody P) s).complete j = true
  | [], _, _, h => h
  | a :: l, s, j, h => by
    rw [List.foldl_cons]
    exact call_complete_mono P l _ j (completeBody_complete_mono P s a j h)

theorem call_completes (P : Params) :
    forall (l : List Nat) (s : SchedState) (j : Nat), j ∈ l →
      s.admitted j = true → (l.foldl (completeBody P) s).complete j = true := by
  intro l
  induction l with
  | nil => intro s j hj; cases hj
  | cons a l ih =>
    intro s j hj hadm
    rw [List.foldl_cons]
    rcases List.mem_cons.mp hj with rfl | hj2
    · exact call_complete_mono P l _ j (completeBody_completes P s j hadm)
    · refine ih _ j hj2 ?_
      rw [completeBody_admitted]
      exact hadm

theorem dall_admitted (P : Params) :
    forall (l : List Nat) (s : SchedState), (l.foldl (drainBody P) s).admitted = s.admitted
  | [], _ => rfl
  | a :: l, s => by
    rw [List.foldl_cons, dall_admitted P l, drainBody_admitted]

theorem dall_complete (P : Params) :
    forall (l : List Nat) (s : SchedState), (l.foldl (drainBody P) s).complete = s.complete
  | [], _ => rfl
  | a :: l, s => by
    rw [List.foldl_cons, dall_complete P l, drainBody_complete]

theorem dall_drained_mono (P : Params) :
    forall (l : List Nat) (s : SchedState) (j : Nat),
      s.drained j = true → (l.foldl (drainBody P) s).drained j = true
  | [], _, _, h => h
  | a :: l, s, j, h => by
    rw [List.foldl_cons]
    exact dall_drained_mono P l _ j (drainBody_drained_mono P s a j h)

theorem dall_drains (P : Params) :
    forall (l : List Nat) (s : SchedState) (j : Nat), j ∈ l →
      j < P.job.Tasks.length → s.admitted j = true → s.complete j = true →
      (l.foldl (drainBody P) s).drained j = true := by
  intro l
  induction l with
  | nil => intro s j hj; cases hj
  | cons a l ih =>
    intro s j hj hjN hadm hcomp
    rw [List.foldl_cons]
    rcases List.mem_cons.mp hj with rfl | hj2
    · exact dall_drained_mono P l _ j (drainBody_drains P s j hjN hadm hcomp)
    · refine ih _ j hj2 hjN ?_ ?_
      · rw [drainBody_admitted]; exact hadm
      · rw [drainBody_complete]; exact hcomp

/-- What `passBody` can do: nothing, or admit the task. -/
theorem passBody_cases (P : Params) (s : SchedState) (a : Nat) :
    passBody P s a = s ∨
    ∃ t, P.job.Tasks.get? a = some t ∧ admitCond P s a t = true ∧
      passBody P s a = admitEffect P s a t := by
  unfold passBody
  cases hg : P.job.Tasks.get? a with
  | none => exact Or.inl rfl
  | some t =>
    by_cases hc : admitCond P s a t = true
    · exact Or.inr ⟨t, rfl, hc, by simp [hc]⟩
    · exact Or.inl (by simp [hc])

/-- What `completeBody` can do: nothing, or finish the admitted task. -/
theorem completeBody_cases (P : Params) (s : SchedState) (a : Nat) :
    completeBody P s a = s ∨
    (s.admitted a = true ∧ s.complete a = false ∧
      completeBody P s a = completeEffect P s a) := by
  unfold completeBody
  by_cases hc : (s.admitted a && !s.complete a) = true
  · obtain ⟨h1, h2⟩ := (Bool.and_eq_true _ _).mp hc
    exact Or.inr ⟨h1, Bool.not_eq_true' _ |>.mp h2, by simp [hc]⟩
  · exact Or.inl (by simp [hc])

/-- What `drainBody` can do: nothing, or drain the finished task. -/
theorem drainBody_cases (P : Params) (s : SchedState) (a : Nat) :
    drainBody P s a = s ∨
    ∃ t, P.job.Tasks.get? a = some t ∧ s.admitted a = true ∧
      s.complete a = true ∧ s.drained a = false ∧
      drainBody P s a = drainEffect P s a t := by
  unfold drainBody
  cases hg : P.job.Tasks.get? a with
  | none => exact Or.inl rfl
  | some t =>
    by_cases hc : (s.admitted a && s.complete a && !s.drained a) = true
    · have h12 := (Bool.and_eq_true _ _).mp hc
      have h1 := ((Bool.and_eq_true _ _).mp h12.1).1
      have h2 := ((Bool.and_eq_true _ _).mp h12.1).2
      have h3 := Bool.not_eq_true' _ |>.mp h12.2
      exact Or.inr ⟨t, rfl, h1, h2, h3, by simp [hc]⟩
    · exact Or.inl (by simp [hc])

/-- The admission pass only takes steps of the transition system (its
admissions carry `err = none`, which the pass preserves). -/
theorem reach_pass_aux (P : Params) :
    forall (l : List Nat) (s : SchedState), s.err = none →
      Relation.ReflTransGen (Step P) s (l.foldl (passBody P) s)
  | [], _, _ => .refl
  | a :: l, s, he => by
    rw [List.foldl_cons]
    have hrest : (passBody P s a).err = none := by rw [passBody_err]; exact he
    have hr : Relation.ReflTransGen (Step P) (passBody P s a)
        (l.foldl (passBody P) (passBody P s a)) := reach_pass_aux P l _ hrest
    refine Relation.ReflTransGen.trans ?_ hr
    rcases passBody_cases P s a with heq | ⟨t, hg, hc, heq⟩
    · rw [heq]
    · rw [heq]
      exact .single (Step.admitTask s a t hg he hc)

theorem reach_call_aux (P : Params) :
    forall (l : List Nat) (s : SchedState),
      Relation.ReflTransGen (Step P) s (l.foldl (completeBody P) s)
  | [], _ => .refl
  | a :: l, s => by
    rw [List.foldl_cons]
    refine Relation.ReflTransGen.trans ?_ (reach_call_aux P l (completeBody P s a))
    rcases completeBody_cases P s a with heq | ⟨h1, h2, heq⟩
    · rw [heq]
    · rw [heq]
      exact .single (Step.complete s a h1 h2)

theorem reach_dall_aux (P : Params) :
    forall (l : List Nat) (s : SchedState),
      Relation.ReflTransGen (Step P) s (l.foldl (drainBody P) s)
  | [], _ => .refl
  | a :: l, s => by
    rw [List.foldl_cons]
    refine Relation.ReflTransGen.trans ?_ (reach_dall_aux P l (drainBody P s a))
    rcases drainBody_cases P s a with heq | ⟨t, hg, h1, h2, h3, heq⟩
    · rw [heq]
    · rw [heq]
      exact .single (Step.drain s a t hg h1 h2 h3)

/-- One round only takes steps of the transition system. -/
theorem reach_schedRound (P : Params) (s : SchedState) (he : s.err = none) :
    Relation.ReflTransGen (Step P) s (schedRound P s) := by
  unfold schedRound completeAll drainAll admissionPass
  refine Relation.ReflTransGen.trans
    (reach_pass_aux P (List.range P.job.Tasks.length) s he) ?_
  exact Relation.ReflTransGen.trans
    (reach_call_aux P (List.range P.job.Tasks.length) _)
    (reach_dall_aux P (List.range P.job.Tasks.length) _)

/-- The loop-boundary condition: between a drain pass and the next
admission pass every admitted task has been drained and no error was
recorded. -/
def BoundaryF (s : SchedState) : Prop :=
  (∀ i, s.admitted i = true → s.drained i = true) ∧ s.err = none

/-- With all builds succeeding, no drain can record an error, so the drain
pass keeps `err = none`. -/
theorem dall_err_none (P : Params) (skip : Nat → Bool)
    (hsucc : ∀ i, P.buildErr i = none) :
    forall (l : List Nat) (s : SchedState), Reach P (initState skip) s →
      s.err = none → (l.foldl (drainBody P) s).err = none
  | [], _, _, he => he
  | a :: l, s, hs, he => by
    rw [List.foldl_cons]
    have hstep : Relation.ReflTransGen (Step P) s (drainBody P s a) := by
      have := reach_dall_aux P [a] s
      simpa using this
    have hs2 : Reach P (initState skip) (drainBody P s a) :=
      Relation.ReflTransGen.trans hs hstep
    refine dall_err_none P skip hsucc l _ hs2 ?_
    have inv := reach_inv hs
    have hTE : ∀ i, s.taskErr i = none := by
      intro i
      rw [inv.task_err i, hsucc i]
      split <;> rfl
    rcases drainBody_cases P s a with heq | ⟨t, hg, h1, h2, h3, heq⟩
    · rw [heq]; exact he
    · rw [heq]
      show (match s.taskErr a with
        | some e => if s.err = none && !P.continueErr then some e else s.err
        | none => s.err) = none
      rw [hTE a]
      exact he

/-- At a boundary the `numRunning` counter is zero. -/
theorem boundary_nr {P : Params} {skip : Nat → Bool} {s : SchedState}
    (inv : Inv P skip s) (hb : ∀ i, s.admitted i = true → s.drained i = true) :
    s.numRunning = 0 ∧ inflightCount P s = 0 := by
  have hz : inflightCount P s = 0 := by
    apply List.countP_eq_zero.mpr
    intro j hj
    simp only [inflightB, Bool.and_eq_true, Bool.not_eq_true']
    intro h
    rcases h with ⟨h1, h2⟩
    rw [hb j h1] at h2
    cases h2
  refine ⟨?_, hz⟩
  rw [inv.nr_count, hz]
  rfl

/-- A ready task for the admission pass. -/
def ReadyAt (P : Params) (s : SchedState) (i : Nat) : Prop :=
  ∃ t, P.job.Tasks.get? i = some t ∧ s.running i = false ∧
    s.complete i = false ∧
    pendingDepsAux P.job.Tasks.length s.complete t.Inputs = some false

/-- At a boundary, an uncompleted task whose dependencies are all
completed is ready. -/
theorem ready_of_deps {P : Params} {skip : Nat → Bool} {s : SchedState}
    (inv : Inv P skip s) (hb : ∀ i, s.admitted i = true → s.drained i = true)
    (hwf : ∀ i ∈ List.range P.job.Tasks.length,
      ∀ d ∈ ((P.job.Tasks.get? i).getD default).Inputs, d < P.job.Tasks.length)
    {i : Nat} (hiN : i < P.job.Tasks.length) (hic : s.complete i = false)
    (hall : ∀ d ∈ ((P.job.Tasks.get? i).getD default).Inputs,
      s.complete d = true) :
    ReadyAt P s i := by
  obtain ⟨t, hgt⟩ : ∃ t, P.job.Tasks.get? i = some t := by
    cases hg : P.job.Tasks.get? i with
    | none => rw [List.get?_eq_none] at hg; omega
    | some t => exact ⟨t, rfl⟩
  have htD : (P.job.Tasks.get? i).getD default = t := by rw [hgt]; rfl
  have hskip : skip i = false := by
    cases hs : skip i
    · rfl
    · rw [inv.skip_comp i hs] at hic; cases hic
  have hadm : s.admitted i = false := by
    cases ha : s.admitted i
    · rfl
    · rw [(inv.drain_adm i (hb i ha)).2] at hic; cases hic
  refine ⟨t, hgt, ?_, hic, ?_⟩
  · rw [inv.run_eq i, hadm, hskip]
    rfl
  · apply pendingDeps_all
    intro d hd
    have hd' : d ∈ ((P.job.Tasks.get? i).getD default).Inputs := by
      rw [htD]; exact hd
    exact ⟨hwf i (List.mem_range.mpr hiN) d hd',
      by have := hall d hd'; exact this⟩

/-- When some task is uncompleted at a boundary of an acyclic job, some
task is ready: pick an uncompleted task of minimal rank. -/
theorem exists_ready {P : Params} {skip : Nat → Bool} {s : SchedState}
    (inv : Inv P skip s) (hb : ∀ i, s.admitted i = true → s.drained i = true)
    (rank : Nat → Nat)
    (hwf : ∀ i ∈ List.range P.job.Tasks.length,
      ∀ d ∈ ((P.job.Tasks.get? i).getD default).Inputs, d < P.job.Tasks.length)
    (hrank : ∀ i ∈ List.range P.job.Tasks.length,
      ∀ d ∈ ((P.job.Tasks.get? i).getD default).Inputs, rank d < rank i)
    (hcc : completedCount P s < P.job.Tasks.length) :
    ∃ i ∈ List.range P.job.Tasks.length, ReadyAt P s i := by
  obtain ⟨i0, hi0, hic0⟩ : ∃ i ∈ List.range P.job.Tasks.length,
      s.complete i = false := by
    by_contra h
    push_neg at h
    have hall : ∀ i ∈ List.range P.job.Tasks.length,
        (fun i => s.complete i) i = true := by
      intro i hi
      show s.complete i = true
      cases hc : s.complete i
      · exact absurd hc (h i hi)
      · rfl
    have := List.countP_eq_length.mpr hall
    rw [completedCount] at hcc
    rw [this, List.length_range] at hcc
    omega
  have H : ∀ r i, i < P.job.Tasks.length → s.complete i = false → rank i ≤ r →
      ∃ j ∈ List.range P.job.Tasks.length, ReadyAt P s j := by
    intro r
    induction r with
    | zero =>
      intro i hiN hic hr
      refine ⟨i, List.mem_range.mpr hiN, ready_of_deps inv hb hwf hiN hic ?_⟩
      intro d hd
      have := hrank i (List.mem_range.mpr hiN) d hd
      omega
    | succ r ih =>
      intro i hiN hic hr
      by_cases hall : ∀ d ∈ ((P.job.Tasks.get? i).getD default).Inputs,
          s.complete d = true
      · exact ⟨i, List.mem_range.mpr hiN, ready_of_deps inv hb hwf hiN hic hall⟩
      · push_neg at hall
        obtain ⟨d, hd, hdc⟩ := hall
        have hdN : d < P.job.Tasks.length := hwf i (List.mem_range.mpr hiN) d hd
        have hdc' : s.complete d = false := by
          cases hc : s.complete d
          · rfl
          · exact absurd hc hdc
        have hdr : rank d ≤ r := by
          have := hrank i (List.mem_range.mpr hiN) d hd
          omega
        exact ih d hdN hdc' hdr
  exact H (rank i0) i0 (List.mem_range.mp hi0) hic0 (le_refl _)

/-- If some listed task is ready and nothing is inflight, the admission
pass admits at least one task (the guard disjunct `numRunning == 0` lets
the first ready task through). -/
theorem pass_progress (P : Params) :
    forall (l : List Nat) (s : SchedState),
      (∀ j, s.admitted j = true → s.running j = true) →
      s.numRunning = 0 →
      (∃ i ∈ l, ReadyAt P s i) →
      ∃ j, (l.foldl (passBody P) s).admitted j = true ∧
        s.admitted j = false ∧ s.complete j = false := by
  intro l
  induction l with
  | nil =>
    intro s h1 h2 hex
    obtain ⟨i, hi, -⟩ := hex
    cases hi
  | cons a l ih =>
    intro s h1 h2 hex
    obtain ⟨i, hi, hready⟩ := hex
    rw [List.foldl_cons]
    cases hg : P.job.Tasks.get? a with
    | none =>
      have heq : passBody P s a = s := by unfold passBody; rw [hg]
      rw [heq]
      rcases List.mem_cons.mp hi with rfl | hi2
      · obtain ⟨t, hgt, -⟩ := hready
        rw [hg] at hgt
        cases hgt
      · exact ih s h1 h2 ⟨i, hi2, hready⟩
    | some t =>
      by_cases hc : admitCond P s a t = true
      · have heq : passBody P s a = admitEffect P s a t := by
          unfold passBody
          rw [hg]
          simp [hc]
        rw [heq]
        obtain ⟨hruna, hcompa, -, -⟩ := admitCond_elim hc
        have hadma : s.admitted a = false := by
          cases ha : s.admitted a
          · rfl
          · rw [h1 a ha] at hruna; cases hruna
        refine ⟨a, ?_, hadma, hcompa⟩
        refine pass_admitted_mono P l _ a ?_
        show upd s.admitted a true a = true
        exact upd_same s.admitted a true
      · have heq : passBody P s a = s := by
          unfold passBody
          rw [hg]
          simp [hc]
        rw [heq]
        rcases List.mem_cons.mp hi with rfl | hi2
        · obtain ⟨t2, hgt, hrun2, hcomp2, hdeps2⟩ := hready
          rw [hg] at hgt
          cases hgt
          exact absurd (admitCond_intro hrun2 hcomp2 hdeps2 (Or.inr h2)) hc
        · exact ih s h1 h2 ⟨i, hi2, hready⟩

/-- Pointwise monotone predicates with one strict flip give a strictly
larger count. -/
theorem countP_lt (l : List Nat) (f g : Nat → Bool)
    (hmono : ∀ k ∈ l, f k = true → g k = true) (j : Nat) (hj : j ∈ l)
    (hfj : f j = false) (hgj : g j = true) : l.countP f < l.countP g := by
  induction l with
  | nil => cases hj
  | cons a l ih =>
    rw [List.countP_cons, List.countP_cons]
    rcases List.mem_cons.mp hj with rfl | hj2
    · have hle : l.countP f ≤ l.countP g :=
        List.countP_mono_left (fun k hk hfk => hmono k (List.mem_cons_of_mem j hk) hfk)
      simp [hfj, hgj]
      omega
    · have hlt := ih (fun k hk hfk => hmono k (List.mem_cons_of_mem a hk) hfk) hj2
      by_cases hfa : f a = true
      · have hga := hmono a (List.mem_cons_self a l) hfa
        simp [hfa, hga]
        omega
      · have hfa' : f a = false := Bool.eq_false_iff.mpr hfa
        simp only [hfa']
        by_cases hga : g a = true <;> simp [hga] <;> omega

theorem all_complete_of_count {P : Params} {s : SchedState}
    (h : P.job.Tasks.length ≤ completedCount P s) :
    ∀ i < P.job.Tasks.length, s.complete i = true := by
  have hle : completedCount P s ≤ P.job.Tasks.length := by
    rw [completedCount]
    have := List.countP_le_length (fun i => s.complete i)
      (l := List.range P.job.Tasks.length)
    simpa using this
  have heq : (List.range P.job.Tasks.length).countP (fun i => s.complete i) =
      (List.range P.job.Tasks.length).length := by
    rw [List.length_range]
    rw [completedCount] at hle h
    omega
  intro i hiN
  have := List.countP_eq_length.mp heq i (List.mem_range.mpr hiN)
  simpa using this

/-- A round at a boundary with an uncompleted task strictly increases the
completed count. -/
theorem round_progress (P : Params) (skip : Nat → Bool) (s : SchedState)
    (hreach : Reach P (initState skip) s) (hb : BoundaryF s)
    (rank : Nat → Nat)
    (hwf : ∀ i ∈ List.range P.job.Tasks.length,
      ∀ d ∈ ((P.job.Tasks.get? i).getD default).Inputs, d < P.job.Tasks.length)
    (hrank : ∀ i ∈ List.range P.job.Tasks.length,
      ∀ d ∈ ((P.job.Tasks.get? i).getD default).Inputs, rank d < rank i)
    (hcc : completedCount P s < P.job.Tasks.length) :
    completedCount P s < completedCount P (schedRound P s) := by
  have inv := reach_inv hreach
  obtain ⟨hnr, -⟩ := boundary_nr inv hb.1
  have h1 : ∀ j, s.admitted j = true → s.running j = true := by
    intro j hj
    rw [inv.run_eq j, hj]
    rfl
  obtain ⟨j, hadmP, hadm0, hcomp0⟩ :=
    pass_progress P (List.range P.job.Tasks.length) s h1 hnr
      (exists_ready inv hb.1 rank hwf hrank hcc)
  have hreach1 : Reach P (initState skip) (admissionPass P s) :=
    Relation.ReflTransGen.trans hreach
      (reach_pass_aux P (List.range P.job.Tasks.length) s hb.2)
  have inv1 := reach_inv hreach1
  have hadmP' : (admissionPass P s).admitted j = true := hadmP
  have hjN : j < P.job.Tasks.length := inv1.adm_lt j hadmP'
  have h2 : (completeAll P (admissionPass P s)).complete j = true := by
    unfold completeAll
    exact call_completes P _ _ j (List.mem_range.mpr hjN) hadmP'
  have h3 : (schedRound P s).complete j = true := by
    unfold schedRound drainAll
    rw [dall_complete]
    exact h2
  have hmono : ∀ k, s.complete k = true → (schedRound P s).complete k = true := by
    intro k hk
    unfold schedRound drainAll
    rw [dall_complete]
    unfold completeAll
    refine call_complete_mono P _ _ k ?_
    unfold admissionPass
    rw [pass_complete]
    exact hk
  rw [completedCount, completedCount]
  exact countP_lt _ _ _ (fun k _ hk => hmono k hk) j (List.mem_range.mpr hjN)
    hcomp0 h3

/-- A round preserves reachability and the boundary condition (given that
every build succeeds). -/
theorem round_boundary (P : Params) (skip : Nat → Bool) (s : SchedState)
    (hreach : Reach P (initState skip) s) (hb : BoundaryF s)
    (hsucc : ∀ i, P.buildErr i = none) :
    Reach P (initState skip) (schedRound P s) ∧ BoundaryF (schedRound P s) := by
  have hr2 : Reach P (initState skip) (schedRound P s) :=
    Relation.ReflTransGen.trans hreach (reach_schedRound P s hb.2)
  have hreach1 : Reach P (initState skip) (admissionPass P s) :=
    Relation.ReflTransGen.trans hreach
      (reach_pass_aux P (List.range P.job.Tasks.length) s hb.2)
  have inv1 := reach_inv hreach1
  refine ⟨hr2, ?_, ?_⟩
  · intro i hadm
    have hadm2 : (completeAll P (admissionPass P s)).admitted i = true := by
      have heq : (schedRound P s).admitted =
          (completeAll P (admissionPass P s)).admitted := by
        unfold schedRound drainAll
        rw [dall_admitted]
      rw [heq] at hadm
      exact hadm
    have hadm1 : (admissionPass P s).admitted i = true := by
      have heq : (completeAll P (admissionPass P s)).admitted =
          (admissionPass P s).admitted := by
        unfold completeAll
        rw [call_admitted]
      rw [heq] at hadm2
      exact hadm2
    have hiN : i < P.job.Tasks.length := inv1.adm_lt i hadm1
    have hcompl : (completeAll P (admissionPass P s)).complete i = true := by
      unfold completeAll
      exact call_completes P _ _ i (List.mem_range.mpr hiN) hadm1
    show (schedRound P s).drained i = true
    unfold schedRound drainAll
    exact dall_drains P _ _ i (List.mem_range.mpr hiN) hiN hadm2 hcompl
  · show (schedRound P s).err = none
    unfold schedRound drainAll
    apply dall_err_none P skip hsucc
    · exact Relation.ReflTransGen.trans hreach1
        (reach_call_aux P (List.range P.job.Tasks.length) _)
    · have h1 : (completeAll P (admissionPass P s)).err = (admissionPass P s).err := by
        unfold completeAll
        rw [call_err]
      have h2 : (admissionPass P s).err = s.err := by
        unfold admissionPass
        rw [pass_err]
      rw [h1, h2, hb.2]

/-- With enough fuel an acyclic job with succeeding builds completes every
task. -/
theorem rounds_terminate (P : Params) (skip : Nat → Bool) (rank : Nat → Nat)
    (hwf : ∀ i ∈ List.range P.job.Tasks.length,
      ∀ d ∈ ((P.job.Tasks.get? i).getD default).Inputs, d < P.job.Tasks.length)
    (hrank : ∀ i ∈ List.range P.job.Tasks.length,
      ∀ d ∈ ((P.job.Tasks.get? i).getD default).Inputs, rank d < rank i)
    (hsucc : ∀ i, P.buildErr i = none) :
    ∀ (fuel : Nat) (s : SchedState), Reach P (initState skip) s → BoundaryF s →
      P.job.Tasks.length ≤ completedCount P s + fuel →
      ∀ i < P.job.Tasks.length, (runRounds P fuel s).complete i = true := by
  intro fuel
  induction fuel with
  | zero =>
    intro s hr hb hle i hiN
    show s.complete i = true
    exact all_complete_of_count (by omega) i hiN
  | succ fuel ih =>
    intro s hr hb hle i hiN
    show (if loopGuard P s then runRounds P fuel (schedRound P s) else s).complete i
      = true
    by_cases hg : loopGuard P s = true
    · rw [if_pos hg]
      have hcc : completedCount P s < P.job.Tasks.length := by
        simp only [loopGuard, Bool.and_eq_true, decide_eq_true_eq] at hg
        exact hg.1
      obtain ⟨hr2, hb2⟩ := round_boundary P skip s hr hb hsucc
      have hprog := round_progress P skip s hr hb rank hwf hrank hcc
      exact ih (schedRound P s) hr2 hb2 (by omega) i hiN
    · rw [if_neg hg]
      have hcc : P.job.Tasks.length ≤ completedCount P s := by
        by_contra hlt
        apply hg
        have herr : (s.err == none) = true := by rw [hb.2]; rfl
        simp [loopGuard, herr]
        omega
      exact all_complete_of_count hcc i hiN

/-- Tasks of a dependency cycle (each member waits on another member) are
never completed in any reachable state: the scheduler has no cycle
detection and simply never admits them. -/
theorem cycle_never_completes (P : Params) (skip : Nat → Bool) (C : Finset Nat)
    (hskip : ∀ i ∈ C, skip i = false)
    (hcyc : ∀ i ∈ C, ∃ t, P.job.Tasks.get? i = some t ∧ ∃ d ∈ t.Inputs, d ∈ C) :
    ∀ s, Reach P (initState skip) s →
      ∀ i ∈ C, s.complete i = false ∧ s.admitted i = false := by
  intro s h
  induction h with
  | refl =>
    intro i hi
    exact ⟨hskip i hi, rfl⟩
  | @tail b c hr hstep ih =>
    intro i hi
    cases hstep with
    | admitTask a t hg herr hcond =>
      obtain ⟨-, -, hdeps, -⟩ := admitCond_elim hcond
      refine ⟨(ih i hi).1, ?_⟩
      by_cases hia : i = a
      · subst hia
        obtain ⟨t', hg', d, hd, hdC⟩ := hcyc i hi
        rw [hg] at hg'
        cases hg'
        have hdone := (pendingDeps_false hdeps d hd).2
        rw [(ih d hdC).1] at hdone
        cases hdone
      · show upd b.admitted a true i = false
        rw [upd_other b.admitted a true i hia]
        exact (ih i hi).2
    | complete a hadm hcomp =>
      have hia : i ≠ a := by
        intro h
        have h2 := (ih i hi).2
        rw [h, hadm] at h2
        cases h2
      refine ⟨?_, (ih i hi).2⟩
      show upd b.complete a true i = false
      rw [upd_other b.complete a true i hia]
      exact (ih i hi).1
    | drain a t hg hadm hcomp hdr =>
      exact ih i hi

/-- C3 (amended): for a job whose dependency ids stay below the task count
and admit a rank function decreasing along dependencies (acyclicity), and
whose builds all eventually deliver a successful result, the scheduler
loop terminates within `len(job.Tasks)` rounds with every task Completed;
and conversely, cycles are not detected: every member of a dependency
cycle (no member pre-skipped) stays uncompleted in every reachable state,
so the loop never reaches the all-Completed exit. -/
theorem scheduler_termination_and_cycle_stall :
    (∀ (P : Params) (skip : Nat → Bool) (rank : Nat → Nat),
      (∀ i ∈ List.range P.job.Tasks.length,
        ∀ d ∈ ((P.job.Tasks.get? i).getD default).Inputs,
          d < P.job.Tasks.length) →
      (∀ i ∈ List.range P.job.Tasks.length,
        ∀ d ∈ ((P.job.Tasks.get? i).getD default).Inputs, rank d < rank i) →
      (∀ i, P.buildErr i = none) →
      ∀ i < P.job.Tasks.length,
        (runRounds P P.job.Tasks.length (initState skip)).complete i = true) ∧
    (∀ (P : Params) (skip : Nat → Bool) (C : Finset Nat) (s : SchedState),
      (∀ i ∈ C, skip i = false) →
      (∀ i ∈ C, ∃ t, P.job.Tasks.get? i = some t ∧ ∃ d ∈ t.Inputs, d ∈ C) →
      Reach P (initState skip) s → ∀ i ∈ C, s.complete i = false) := by
  constructor
  · intro P skip rank hwf hrank hsucc i hiN
    refine rounds_terminate P skip rank hwf hrank hsucc P.job.Tasks.length
      (initState skip) Relation.ReflTransGen.refl ⟨fun j h => ?_, rfl⟩
      (by omega) i hiN
    cases h
  · intro P skip C s h1 h2 hr i hi
    exact (cycle_never_completes P skip C h1 h2 s hr i hi).1

/-! ### Concrete instances for witnesses and counterexamples -/

/-- A task with no dependencies whose label matches the alone-flagged
preference project. -/
def taskA : Task :=
  { Inputs := [], Cost := 1, Messages := "HandlerProject build"
    MadeProj := "p/HandlerProject.xcodeproj", ID := 0 }

/-- A task depending on task 0. -/
def taskB : Task :=
  { Inputs := [0], Cost := 2, Messages := "OtherProj build"
    MadeProj := "p/OtherProj.xcodeproj", ID := 1 }

def jobAB : Job := { Tasks := [taskA, taskB], Platform := "" }

def prefs0 : Prefs :=
  { Workers := 3, Threads := 10
    Projects := [{ Name := "HandlerProject", Alone := true, Ignore := false }] }

def skipNone : Nat → Bool := fun _ => false

/-- Stop-on-error run of the two-task chain whose root build fails. -/
def paramsFail : Params :=
  { job := jobAB, prefs := prefs0, goos := "darwin", continueErr := false
    buildErr := fun i => if i = 0 then some 5 else none }

/-- C3 counterexample: an acyclic two-task job (task 1 depends on task 0)
whose root build delivers a failing result under stop-on-error.  The
scheduler loop terminates (the guard is false after one round, because the
first failure set `err`), yet task 1 is never completed — the loop does
not reach the all-Completed state the claim promises for every acyclic job
whose builds all deliver results. -/
theorem scheduler_termination_cx :
    loopGuard paramsFail (runRounds paramsFail 2 (initState skipNone)) = false ∧
    (runRounds paramsFail 2 (initState skipNone)).complete 1 = false ∧
    (runRounds paramsFail 2 (initState skipNone)).err = some 5 ∧
    completedCount paramsFail (runRounds paramsFail 2 (initState skipNone)) <
      paramsFail.job.Tasks.length := by
  refine ⟨?_, ?_, ?_, ?_⟩ <;> decide

/-! ### The --deps transitive-closure expansion of `main`

`main` seeds `todo` with the ids of tasks whose label contains one of the
requested (trimmed) names, then repeats full passes over `job.Tasks` —
adding `task.ID` whenever the task `DependsOn` some id already in `todo` —
until a pass leaves the size unchanged. -/

/-- One body step of the expansion pass. -/
def expandStep (td : Finset Nat) (t : Task) : Finset Nat :=
  if ∃ id ∈ td, t.DependsOn id = true then insert t.ID td else td

/-- One full pass over the tasks (later tasks see ids added earlier in the
same pass, as with the Go map). -/
def expandPass (tasks : List Task) (todo : Finset Nat) : Finset Nat :=
  tasks.foldl expandStep todo

/-- The seed: ids of tasks whose label contains one of the requested
names (after `strings.TrimSpace`). -/
def depsSeed (tasks : List Task) (allDeps : List String) : Finset Nat :=
  tasks.foldl
    (fun td t =>
      if allDeps.any (fun dep => strContains t.Messages dep.trim) then
        insert t.ID td
      else td) ∅

/-- The size-stable loop `for previousSize != size`. -/
def expandLoop (tasks : List Task) : Nat → Finset Nat → Finset Nat
  | 0, todo => todo
  | fuel + 1, todo =>
    let todo2 := expandPass tasks todo
    if todo2.card = todo.card then todo2 else expandLoop tasks fuel todo2

/-- The whole `--deps` expansion (the Go loop needs at most one pass per
task plus a final stable pass). -/
def transitiveClosure (tasks : List Task) (allDeps : List String) : Finset Nat :=
  expandLoop tasks (tasks.length + 1) (depsSeed tasks allDeps)

theorem expandLoop_succ (tasks : List Task) (fuel : Nat) (todo : Finset Nat) :
    expandLoop tasks (fuel + 1) todo =
      if (expandPass tasks todo).card = todo.card then expandPass tasks todo
      else expandLoop tasks fuel (expandPass tasks todo) := rfl

theorem subset_expandStep (td : Finset Nat) (t : Task) : td ⊆ expandStep td t := by
  unfold expandStep
  by_cases h : ∃ id ∈ td, t.DependsOn id = true
  · rw [if_pos h]
    exact Finset.subset_insert _ td
  · rw [if_neg h]

theorem subset_expandPass (tasks : List Task) :
    ∀ todo : Finset Nat, todo ⊆ expandPass tasks todo := by
  show ∀ todo, todo ⊆ tasks.foldl expandStep todo
  induction tasks with
  | nil => exact fun _ => Finset.Subset.refl _
  | cons t l ih =>
    intro todo
    rw [List.foldl_cons]
    exact Finset.Subset.trans (subset_expandStep todo t) (ih _)

theorem expandStep_mem (td : Finset Nat) (t : Task) (a : Nat)
    (h : a ∈ expandStep td t) : a ∈ td ∨ a = t.ID := by
  unfold expandStep at h
  by_cases hc : ∃ id ∈ td, t.DependsOn id = true
  · rw [if_pos hc] at h
    rcases Finset.mem_insert.mp h with h | h
    · exact Or.inr h
    · exact Or.inl h
  · rw [if_neg hc] at h
    exact Or.inl h

theorem expandPass_mem (tasks : List Task) :
    ∀ (todo : Finset Nat) (a : Nat), a ∈ expandPass tasks todo →
      a ∈ todo ∨ ∃ t ∈ tasks, t.ID = a := by
  show ∀ todo a, a ∈ tasks.foldl expandStep todo → _
  induction tasks with
  | nil => exact fun _ _ h => Or.inl h
  | cons t l ih =>
    intro todo a h
    rw [List.foldl_cons] at h
    rcases ih _ a h with h2 | ⟨t', ht', rfl⟩
    · rcases expandStep_mem todo t a h2 with h3 | h3
      · exact Or.inl h3
      · exact Or.inr ⟨t, List.mem_cons_self t l, h3.symm⟩
    · exact Or.inr ⟨t', List.mem_cons_of_mem t ht', rfl⟩

theorem expandPass_eq_of_card (tasks : List Task) (todo : Finset Nat)
    (h : (expandPass tasks todo).card = todo.card) :
    expandPass tasks todo = todo :=
  (Finset.eq_of_subset_of_card_le (subset_expandPass tasks todo) (le_of_eq h)).symm

/-- Ids of the tasks. -/
def idsF (tasks : List Task) : Finset Nat := (tasks.map Task.ID).toFinset

theorem expandPass_subset_ids (tasks : List Task) (todo : Finset Nat)
    (hsub : todo ⊆ idsF tasks) : expandPass tasks todo ⊆ idsF tasks := by
  intro a ha
  rcases expandPass_mem tasks todo a ha with h | ⟨t, ht, rfl⟩
  · exact hsub h
  · exact List.mem_toFinset.mpr (List.mem_map.mpr ⟨t, ht, rfl⟩)

theorem depsSeed_subset_ids (tasks : List Task) (allDeps : List String) :
    depsSeed tasks allDeps ⊆ idsF tasks := by
  unfold depsSeed
  have H : ∀ (l : List Task) (td : Finset Nat),
      (∀ t ∈ l, t.ID ∈ idsF tasks) → td ⊆ idsF tasks →
      l.foldl (fun td t =>
        if allDeps.any (fun dep => strContains t.Messages dep.trim) then
          insert t.ID td
        else td) td ⊆ idsF tasks := by
    intro l
    induction l with
    | nil => exact fun td _ h => h
    | cons t l ih =>
      intro td hl htd
      rw [List.foldl_cons]
      refine ih _ (fun u hu => hl u (List.mem_cons_of_mem t hu)) ?_
      by_cases hc : allDeps.any (fun dep => strContains t.Messages dep.trim) = true
      · rw [if_pos hc]
        exact Finset.insert_subset (hl t (List.mem_cons_self t l)) htd
      · rw [if_neg hc]
        exact htd
  refine H tasks ∅ (fun t ht => ?_) (Finset.empty_subset _)
  exact List.mem_toFinset.mpr (List.mem_map.mpr ⟨t, ht, rfl⟩)

/-- With enough fuel the loop reaches a pass-stable set. -/
theorem expandLoop_fixed (tasks : List Task) :
    ∀ (fuel : Nat) (todo : Finset Nat), todo ⊆ idsF tasks →
      (idsF tasks).card < todo.card + fuel →
      expandPass tasks (expandLoop tasks fuel todo) = expandLoop tasks fuel todo := by
  intro fuel
  induction fuel with
  | zero =>
    intro todo hsub hlt
    exfalso
    have := Finset.card_le_card hsub
    omega
  | succ fuel ih =>
    intro todo hsub hlt
    rw [expandLoop_succ]
    by_cases hcard : (expandPass tasks todo).card = todo.card
    · rw [if_pos hcard]
      have heq := expandPass_eq_of_card tasks todo hcard
      rw [heq]
      exact heq
    · rw [if_neg hcard]
      have hsub2 := expandPass_subset_ids tasks todo hsub
      have hmono := Finset.card_le_card (subset_expandPass tasks todo)
      exact ih (expandPass tasks todo) hsub2 (by omega)

theorem subset_expandLoop (tasks : List Task) :
    ∀ (fuel : Nat) (todo : Finset Nat), todo ⊆ expandLoop tasks fuel todo := by
  intro fuel
  induction fuel with
  | zero => exact fun todo => Finset.Subset.refl _
  | succ fuel ih =>
    intro todo
    rw [expandLoop_succ]
    by_cases hcard : (expandPass tasks todo).card = todo.card
    · rw [if_pos hcard]
      exact subset_expandPass tasks todo
    · rw [if_neg hcard]
      exact Finset.Subset.trans (subset_expandPass tasks todo) (ih _)

theorem expandPass_subset_closed (tasks : List Task) (T : Finset Nat)
    (hclosed : ∀ t ∈ tasks, (∃ id ∈ T, t.DependsOn id = true) → t.ID ∈ T) :
    ∀ todo : Finset Nat, todo ⊆ T → expandPass tasks todo ⊆ T := by
  show ∀ todo, todo ⊆ T → tasks.foldl expandStep todo ⊆ T
  induction tasks with
  | nil => exact fun _ h => h
  | cons t l ih =>
    intro todo htd
    rw [List.foldl_cons]
    refine ih (fun u hu h => hclosed u (List.mem_cons_of_mem t hu) h) _ ?_
    unfold expandStep
    by_cases hc : ∃ id ∈ todo, t.DependsOn id = true
    · rw [if_pos hc]
      obtain ⟨id, hid, hdep⟩ := hc
      exact Finset.insert_subset
        (hclosed t (List.mem_cons_self t l) ⟨id, htd hid, hdep⟩) htd
    · rw [if_neg hc]
      exact htd

theorem expandLoop_subset_closed (tasks : List Task) (T : Finset Nat)
    (hclosed : ∀ t ∈ tasks, (∃ id ∈ T, t.DependsOn id = true) → t.ID ∈ T) :
    ∀ (fuel : Nat) (todo : Finset Nat), todo ⊆ T →
      expandLoop tasks fuel todo ⊆ T := by
  intro fuel
  induction fuel with
  | zero => exact fun todo h => h
  | succ fuel ih =>
    intro todo htd
    rw [expandLoop_succ]
    by_cases hcard : (expandPass tasks todo).card = todo.card
    · rw [if_pos hcard]
      exact expandPass_subset_closed tasks T hclosed todo htd
    · rw [if_neg hcard]
      exact ih _ (expandPass_subset_closed tasks T hclosed todo htd)

/-- C6: the `--deps` expansion computes the least fixed point: its result
is pass-stable (adding any task that directly `DependsOn` a member
changes nothing), contains the label-matched seed, is contained in every
set that contains the seed and is closed under adding direct dependents,
and re-running the whole expansion on its own output returns it
unchanged. -/
theorem deps_closure_least_fixed_point (tasks : List Task) (allDeps : List String) :
    expandPass tasks (transitiveClosure tasks allDeps) =
      transitiveClosure tasks allDeps ∧
    depsSeed tasks allDeps ⊆ transitiveClosure tasks allDeps ∧
    (∀ T : Finset Nat, depsSeed tasks allDeps ⊆ T →
      (∀ t ∈ tasks, (∃ id ∈ T, t.DependsOn id = true) → t.ID ∈ T) →
      transitiveClosure tasks allDeps ⊆ T) ∧
    expandLoop tasks (tasks.length + 1) (transitiveClosure tasks allDeps) =
      transitiveClosure tasks allDeps := by
  have hcard : (idsF tasks).card <
      (depsSeed tasks allDeps).card + (tasks.length + 1) := by
    have h1 : (idsF tasks).card ≤ tasks.length := by
      have := List.toFinset_card_le (tasks.map Task.ID)
      rw [List.length_map] at this
      exact this
    omega
  have hfix : expandPass tasks (transitiveClosure tasks allDeps) =
      transitiveClosure tasks allDeps :=
    expandLoop_fixed tasks (tasks.length + 1) (depsSeed tasks allDeps)
      (depsSeed_subset_ids tasks allDeps) hcard
  refine ⟨hfix, subset_expandLoop tasks _ _, ?_, ?_⟩
  · intro T hseed hclosed
    exact expandLoop_subset_closed tasks T hclosed _ _ hseed
  · rw [expandLoop_succ, if_pos (by rw [hfix])]
    exact hfix

/-- The watchdog run, started at any score, kills exactly when some
nonempty prefix of the samples drives the decayed score over the
threshold. -/
theorem wdRunAux_iff (w : Watchdog) :
    ∀ (samples : List Bool) (sc : ℚ),
      (wdRunAux w sc samples = true ↔
        ∃ k, 1 ≤ k ∧ k ≤ samples.length ∧
          w.threshold < (samples.take k).foldl (wdStep w) sc) := by
  intro samples
  induction samples with
  | nil =>
    intro sc
    constructor
    · intro h
      cases h
    · rintro ⟨k, hk1, hk2, -⟩
      simp at hk2
      omega
  | cons b rest ih =>
    intro sc
    show (if w.threshold < wdStep w sc b then true
      else wdRunAux w (wdStep w sc b) rest) = true ↔ _
    by_cases hb : w.threshold < wdStep w sc b
    · rw [if_pos hb]
      constructor
      · intro _
        exact ⟨1, le_refl 1, by simp, by simpa using hb⟩
      · intro _
        rfl
    · rw [if_neg hb]
      rw [ih (wdStep w sc b)]
      constructor
      · rintro ⟨k, hk1, hklen, hgt⟩
        refine ⟨k + 1, by omega, by simp; omega, ?_⟩
        rw [List.take_succ_cons, List.foldl_cons]
        exact hgt
      · rintro ⟨k, hk1, hklen, hgt⟩
        obtain ⟨k2, rfl⟩ : ∃ k2, k = k2 + 1 := ⟨k - 1, by omega⟩
        rw [List.take_succ_cons, List.foldl_cons] at hgt
        rcases Nat.eq_zero_or_pos k2 with rfl | hk2
        · rw [List.take_zero, List.foldl_nil] at hgt
          exact absurd hgt hb
        · exact ⟨k2, hk2, by simp at hklen; omega, hgt⟩

/-- C8: the watchdog keeps a decayed inactivity score — a near-zero-CPU
sample adds the fixed increment, an active sample multiplies by the decay
factor — and it kills the process exactly when some prefix of the samples
drives the score over the threshold (reporting the distinct stuck-task
outcome); a process whose samples never drive the decayed score over the
threshold is never killed. -/
theorem watchdog_decayed_threshold (w : Watchdog) (samples : List Bool) (sc : ℚ) :
    wdStep w sc true = sc + w.increment ∧
    wdStep w sc false = sc * w.decay ∧
    (wdKilled w samples = true ↔
      ∃ k, 1 ≤ k ∧ k ≤ samples.length ∧
        w.threshold < wdScore w (samples.take k)) ∧
    (wdReport w samples = WdReport.stuck ↔ wdKilled w samples = true) := by
  refine ⟨rfl, rfl, ?_, ?_⟩
  · have h := wdRunAux_iff w samples 0
    exact h
  · unfold wdReport
    by_cases hk : wdKilled w samples = true
    · rw [if_pos hk]
      simp [hk]
    · rw [if_neg hk]
      simp [hk]

/-- C9: `checkWinCompiler` probes the candidate directories in the fixed
priority order VS2017, VS2017 Enterprise, VS2017 Ultimate, VS2015 and
returns the first existing one; when none exists it panics
("Could not find VisualStudio!", rendered `none`), and then no task ever
gets a build command constructed — the fatal configuration error fires
before any task's build command executes. -/
theorem toolchain_resolution (ex : String → Bool) :
    checkWinCompiler ex = vsCandidates.find? ex ∧
    ((∀ p ∈ vsCandidates, ex p = false) →
      checkWinCompiler ex = none ∧
      ∀ (threads : Nat) (ios : Bool) (config : String) (t : Task),
        buildCmd "windows" ex threads ios config t = none) := by
  constructor
  · unfold checkWinCompiler vsCandidates
    cases h1 : ex gVS2017 <;> cases h2 : ex gVS2017Ent <;>
      cases h3 : ex gVS2017Ult <;> cases h4 : ex gVS2015 <;>
        simp [List.find?, h1, h2, h3, h4]
  · intro hall
    have hnone : checkWinCompiler ex = none := by
      have h1 := hall gVS2017 (by simp [vsCandidates])
      have h2 := hall gVS2017Ent (by simp [vsCandidates])
      have h3 := hall gVS2017Ult (by simp [vsCandidates])
      have h4 := hall gVS2015 (by simp [vsCandidates])
      simp [checkWinCompiler, h1, h2, h3, h4]
    refine ⟨hnone, fun threads ios config t => ?_⟩
    simp [buildCmd, hnone]

/-! ### Concrete executions -/

/-- The same job on Windows: `taskA` is alone-class there. -/
def paramsWin : Params :=
  { job := jobAB, prefs := prefs0, goos := "windows", continueErr := false
    buildErr := fun _ => none }

/-- Continue-on-error run of the job whose root build fails. -/
def paramsCE : Params :=
  { job := jobAB, prefs := prefs0, goos := "darwin", continueErr := true
    buildErr := fun i => if i = 0 then some 7 else none }

def sF1 : SchedState := admitEffect paramsFail (initState skipNone) 0 taskA

def sF2 : SchedState := completeEffect paramsFail sF1 0

def sF3 : SchedState := drainEffect paramsFail sF2 0 taskA

theorem reach_sF3 : Reach paramsFail (initState skipNone) sF3 :=
  Relation.ReflTransGen.tail
    (Relation.ReflTransGen.tail
      (Relation.ReflTransGen.single
        (Step.admitTask (initState skipNone) 0 taskA (by decide) rfl (by decide)))
      (Step.complete sF1 0 (by decide) (by decide)))
    (Step.drain sF2 0 taskA (by decide) (by decide) (by decide) (by decide))

def sC1 : SchedState := admitEffect paramsCE (initState skipNone) 0 taskA

def sC2 : SchedState := completeEffect paramsCE sC1 0

def sC3 : SchedState := drainEffect paramsCE sC2 0 taskA

theorem reach_sC3 : Reach paramsCE (initState skipNone) sC3 :=
  Relation.ReflTransGen.tail
    (Relation.ReflTransGen.tail
      (Relation.ReflTransGen.single
        (Step.admitTask (initState skipNone) 0 taskA (by decide) rfl (by decide)))
      (Step.complete sC1 0 (by decide) (by decide)))
    (Step.drain sC2 0 taskA (by decide) (by decide) (by decide) (by decide))

/-- C4 counterexample: a run with continue-on-error on in which task 0
completes with a failing result and its result is drained (`drainLog =
[0]`), yet the run error stays `none` — not the `Err` of the first failed
task in drain order, refuting the claim's unconditional "for every run". -/
theorem first_error_policy_cx :
    Reach paramsCE (initState skipNone) sC3 ∧
    sC3.drainLog = [0] ∧ paramsCE.buildErr 0 = some 7 ∧ sC3.err = none ∧
    sC3.err ≠ firstErr paramsCE.buildErr sC3.drainLog :=
  ⟨reach_sC3, by decide, by decide, by decide, by decide⟩

/-- The Windows run after admitting the alone-class task 0. -/
def sW1 : SchedState := admitEffect paramsWin (initState skipNone) 0 taskA

theorem reach_sW1 : Reach paramsWin (initState skipNone) sW1 :=
  Relation.ReflTransGen.single
    (Step.admitTask (initState skipNone) 0 taskA (by decide) rfl (by decide))

/-- C1 witness: in the Windows run with alone-class task 0 inflight, the
exclusivity statement holds at the concrete reachable state `sW1`. -/
theorem alone_exclusivity_witness :
    (∀ i j ti, inflightB sW1 i = true →
      paramsWin.job.Tasks.get? i = some ti →
      isAloneProject paramsWin.goos paramsWin.prefs ti = true →
      inflightB sW1 j = true → i = j) ∧
    (∀ i ti, inflightB sW1 i = true →
      paramsWin.job.Tasks.get? i = some ti →
      isAloneProject paramsWin.goos paramsWin.prefs ti = true →
      Step paramsWin sW1 (completeEffect paramsWin sW1 0) →
      ∀ j, inflightB (completeEffect paramsWin sW1 0) j = true →
        inflightB sW1 j = true) :=
  alone_exclusivity paramsWin skipNone sW1 (completeEffect paramsWin sW1 0)
    reach_sW1

/-- C2 witness at the concrete run `paramsFail` and its reachable state
`sF3`. -/
theorem deps_completed_before_running_witness :
    (∀ i t, sF3.admitted i = true → paramsFail.job.Tasks.get? i = some t →
      ∀ d ∈ t.Inputs, sF3.complete d = true) ∧
    (∀ t ∈ paramsFail.job.Tasks, ∀ cm : Nat → Bool,
      (pendingDepsAux paramsFail.job.Tasks.length cm t.Inputs).isSome = true) :=
  deps_completed_before_running paramsFail skipNone sF3 reach_sF3 (by decide)

/-- C4 witness: in the stop-on-error run that drained the failing task 0,
the recorded error is the first failure in drain order. -/
theorem first_error_policy_witness :
    sF3.err = firstErr paramsFail.buildErr sF3.drainLog :=
  first_error_policy paramsFail skipNone sF3 reach_sF3 rfl

/-- C5 witness at the concrete reachable state `sF3` of the stop-on-error
run. -/
theorem stop_on_error_witness :
    (∀ e s', sF3.err = some e →
      Relation.ReflTransGen (Step paramsFail) sF3 s' →
      (∀ i, s'.admitted i = sF3.admitted i) ∧ s'.err = some e) ∧
    (∀ i t, paramsFail.job.Tasks.get? i = some t → sF3.admitted i = true →
      sF3.complete i = true → sF3.drained i = false →
      Step paramsFail sF3 (drainEffect paramsFail sF3 i t)) ∧
    (paramsFail.continueErr = true → sF3.err = none) :=
  stop_on_error paramsFail skipNone sF3 reach_sF3

/-- Pre-run skip of task 0. -/
def skip0 : Nat → Bool := fun j => decide (j = 0)

/-- With task 0 skipped, task 1 is immediately admissible: its only
dependency is the skipped task. -/
def sK1 : SchedState := admitEffect paramsFail (initState skip0) 1 taskB

theorem reach_sK1 : Reach paramsFail (initState skip0) sK1 :=
  Relation.ReflTransGen.single
    (Step.admitTask (initState skip0) 1 taskB (by decide) rfl (by decide))

/-- C7 witness: the pre-skipped task 0 stays completed, unadmitted and
error-free in the concrete reachable state `sK1`. -/
theorem mark_skipped_witness :
    sK1.complete 0 = true ∧ sK1.admitted 0 = false ∧ sK1.taskErr 0 = none ∧
    completedCount paramsFail (initState skip0) =
      (List.range paramsFail.job.Tasks.length).countP (fun j => skip0 j) :=
  mark_skipped paramsFail skip0 sK1 0 reach_sK1 (by decide)

/-- C10 witness: the non-Windows run `paramsFail` at the concrete
reachable state `sF3`. -/
theorem nonwindows_alone_disabled_witness :
    (∀ t, isAloneProject paramsFail.goos paramsFail.prefs t = false) ∧
    sF3.isAloneLaunched = false ∧
    (∀ t, ((!isAloneProject paramsFail.goos paramsFail.prefs t &&
      !sF3.isAloneLaunched) || sF3.numRunning == 0) = true) :=
  nonwindows_alone_disabled paramsFail skipNone sF3 reach_sF3 (by decide)

end Mpbuild
